import Mathlib

/-!
Verification of `adequate-cache`.

A shallow embedding of the `AdequateCache` class (src/adequate_cache.ts) and its
entry type (src/internals.ts / options.ts), with theorems settling the frozen
specification claims.

Modelling conventions:
* The JS `Map<string, AdequateCacheEntry>` is an association list in Map
  insertion order (JS Maps iterate in insertion order, which matters in
  `_vacuum`).  `mapSet`, `mapDelete`, `mapUpdate` mirror `Map.set`,
  `Map.delete` and in-place mutation of a stored entry object.
* The doubly-linked recency list is kept at pointer level: each entry carries
  `prev`/`next` keys and the cache carries `head`/`tail` keys, exactly as the
  source's object references (object identity coincides with key identity
  because the store holds at most one entry per key).
* JS numbers used as timestamps/ttls are `Int`; truthiness of a ttl
  (`if (entry.ttl)`) is `ttlTruthy`; truthiness of `options.max` is
  `maxTruthy`.  `vacuumOverflowFactor` (default 1.2) is a rational; the exact
  float/rational distinction is irrelevant at the integer sizes the claims use.
* The injectable clock `_now()` is an explicit `now : Int` argument per public
  operation; all internal `_now()` calls during one operation observe it.
* `value === undefined` is `Option.none`: `get` returns `Option V`,
  `set` takes `Option V`.  The per-call `ttl?` argument distinguishes
  "argument omitted" (`none`, JS `undefined`, falls back to the default)
  from "explicitly null" (`some none`, never expires):
  `Option (Option Int)`.
* `setTimeout(() => this._vacuum(), 0)` (a deferred sweep) is modelled by the
  separate step `Op.vacuumNow`: the scheduled callback firing later.
-/

set_option maxHeartbeats 1000000

namespace AdequateCache

/-- One stored entry: `AdequateCacheEntry` from internals.ts/options.ts.
`prev`/`next` are the doubly-linked recency-list pointers (keys stand for the
object references). -/
structure EntryData (V : Type) where
  value : V
  ttl : Option Int
  timestamp : Int
  prev : Option String := none
  next : Option String := none
  deriving Repr, DecidableEq

/-- `AdequateCacheEntry.hasExpired`: `this.ttl && now - this.timestamp > this.ttl`.
A falsy ttl (null/undefined/0) means the entry never expires. -/
def EntryData.hasExpired (e : EntryData V) (now : Int) : Bool :=
  match e.ttl with
  | none => false
  | some t => t ≠ 0 && now - e.timestamp > t

/-- Truthiness of a JS ttl value (`null`/`undefined`/`0` are falsy). -/
def ttlTruthy : Option Int → Bool
  | none => false
  | some t => t ≠ 0

/-- The recognized configuration options (options.ts), with the defaults of
`DEFAULT_OPTIONS` and of the class fields.  `provider` returns
`Except Unit (Option V)`: `.error` models a throw/rejection, `.ok none` a
resolved `undefined`. -/
structure Options (V : Type) where
  ttl : Option Int := none
  max : Option Nat := none
  vacuumFrequency : Int := 60000
  vacuumOverflowFactor : ℚ := 6/5
  vacuumInBackground : Bool := true
  provider : Option (List String → Except Unit (Option V)) := none
  providerArgsToKey : Option (List String → String) := none

/-- Truthiness of `options.max` (`null`/`undefined`/`0` are falsy). -/
def Options.maxTruthy (o : Options V) : Bool :=
  match o.max with
  | none => false
  | some m => m ≠ 0

/-- The numeric value of `options.max` where it is read. -/
def Options.maxVal (o : Options V) : Nat := o.max.getD 0

/-- The JS `Map<string, entry>` as an association list in insertion order. -/
abbrev Store (V : Type) := List (String × EntryData V)

/-- `Map.delete k`: remove the (unique) binding of `k`, keeping order (also
used for the `_providerPromises` map). -/
def mapDelete (k : String) : List (String × α) → List (String × α)
  | [] => []
  | p :: ps => if p.1 = k then ps else p :: mapDelete k ps

/-- `Map.set k v`: replace in place if the key is bound, else append. -/
def mapSet (k : String) (v : EntryData V) (l : Store V) : Store V :=
  if (l.lookup k).isSome then
    l.map fun p => if p.1 = k then (k, v) else p
  else
    l ++ [(k, v)]

/-- In-place mutation of the entry object stored at `k` (a no-op if `k` is
unbound; the source always mutates objects that are in the map when the list
invariant holds). -/
def mapUpdate (k : String) (f : EntryData V → EntryData V) (l : Store V) : Store V :=
  l.map fun p => if p.1 = k then (k, f p.2) else p

/-- The `AdequateCache` instance state. -/
structure Cache (V : Type) where
  options : Options V
  data : Store V := []
  head : Option String := none
  tail : Option String := none
  ttlCount : Int := 0
  lastVacuumAt : Int := 0
  pendingVacuum : Bool := false

/-- The constructor: empty store, `_lastVacuumAt = now()`. -/
def Cache.init (opts : Options V) (now : Int) : Cache V :=
  { options := opts, lastVacuumAt := now }

/-- The store mutations of `_detach(entry)`: re-link the neighbours of the
entry at `k`, then clear the entry's own links.  `e` is the entry as read at
the start of `_detach` (all of the source's reads are of the pre-mutation
fields). -/
def detachData (e : EntryData V) (k : String) (d : Store V) : Store V :=
  let d := match e.next with
    | some nk => mapUpdate nk (fun x => { x with prev := e.prev }) d
    | none => d
  let d := match e.prev with
    | some pk => mapUpdate pk (fun x => { x with next := e.next }) d
    | none => d
  mapUpdate k (fun x => { x with next := none, prev := none }) d

/-- `_detach(entry)`: unlink `k` from the recency list, re-linking neighbours,
updating head/tail, then clearing the entry's own links.  The entry stays in
the lookup. -/
def Cache.detachKey (c : Cache V) (k : String) : Cache V :=
  match c.data.lookup k with
  | none => c
  | some e =>
    { c with
      head := if c.head = some k then e.next else c.head,
      tail := if c.tail = some k then e.prev else c.tail,
      data := detachData e k c.data }

/-- The store mutations of `_attachToHead(entry)` for an entry already in the
store: `entry.next = head` (in both branches of the source the assigned value
is the old head), `head.prev = entry` when a head exists, `entry.prev = null`.
`h` is the old head. -/
def attachData (h : Option String) (k : String) (d : Store V) : Store V :=
  let d := mapUpdate k (fun x => { x with next := h }) d
  let d := match h with
    | some hk => mapUpdate hk (fun x => { x with prev := some k }) d
    | none => d
  mapUpdate k (fun x => { x with prev := none }) d

/-- `_attachToHead(entry)` for an entry already in the store (the `get` touch
path): link as new head; if the list was empty the entry also becomes tail. -/
def Cache.attachHeadKey (c : Cache V) (k : String) : Cache V :=
  { c with
    data := attachData c.head k c.data,
    tail := if c.tail = none then some k else c.tail,
    head := some k }

/-- `_attachToHead(entry)`'s effect on the cache for a freshly created entry
that is not yet in the store (the `set` path; the store insertion happens
after the attach): only the old head's `prev` pointer, the tail and the head
change.  The new entry itself ends up with `next = old head` (in both source
branches the assigned value is the old head) and `prev = null`. -/
def Cache.attachHeadNewC (c : Cache V) (k : String) : Cache V :=
  { c with
    data := match c.head with
      | some hk => mapUpdate hk (fun x => { x with prev := some k }) c.data
      | none => c.data,
    tail := if c.tail = none then some k else c.tail,
    head := some k }

/-- `_doDelete(entry)`: detach when LRU is on, remove from the store,
maintain the finite-ttl counter (the ttl is read from the entry object, i.e.
as it was at lookup). -/
def Cache.doDelete (c : Cache V) (k : String) : Cache V :=
  match c.data.lookup k with
  | none => c
  | some e =>
    let c1 := if c.options.maxTruthy then c.detachKey k else c
    { c1 with
      data := mapDelete k c1.data,
      ttlCount := if ttlTruthy e.ttl then c1.ttlCount - 1 else c1.ttlCount }

/-- The TTL phase of `_vacuum`: iterate the store values (a snapshot of the
keys; only the entry under the cursor is ever deleted, so live-map iteration
coincides with snapshot iteration), deleting expired entries, breaking once
the finite-ttl counter drops to zero. -/
def vacuumTtlPass (now : Int) : List String → Cache V → Cache V
  | [], c => c
  | k :: ks, c =>
    match c.data.lookup k with
    | none => vacuumTtlPass now ks c
    | some e =>
      if e.hasExpired now then
        let c := c.doDelete k
        if c.ttlCount ≤ 0 then c else vacuumTtlPass now ks c
      else vacuumTtlPass now ks c

/-- The overflow phase of `_vacuum`: `while (size > max && tail) doDelete(tail)`.
The fuel bounds the iterations; it is called with the store size, which
suffices because each deletion of a present tail shrinks the store. -/
def trimPass (maxN : Nat) : Nat → Cache V → Cache V
  | 0, c => c
  | fuel + 1, c =>
    if c.data.length > maxN then
      match c.tail with
      | some k => trimPass maxN fuel (c.doDelete k)
      | none => c
    else c

/-- The TTL phase of `_vacuum`, with its `finiteTtlCount > 0` guard. -/
def vacuumTtlStep (c : Cache V) (now : Int) : Cache V :=
  if c.ttlCount > 0 then vacuumTtlPass now (c.data.map Prod.fst) c else c

/-- The overflow phase of `_vacuum`, with its `options.max` guard. -/
def vacuumTrimStep (c : Cache V) : Cache V :=
  if c.options.maxTruthy then trimPass c.options.maxVal c.data.length c else c

/-- `_vacuum()`: clear the pending flag, stamp `lastVacuumAt`, run the TTL
phase when any finite-ttl entries exist, then trim overflow from the tail. -/
def Cache.vacuum (c : Cache V) (now : Int) : Cache V :=
  vacuumTrimStep
    (vacuumTtlStep { c with pendingVacuum := false, lastVacuumAt := now } now)

/-- `_tryVacuum()`: the vacuum scheduler's decision step.  With background
vacuuming configured it only raises the pending flag (the deferred sweep
itself is the separate `vacuumNow` step). -/
def Cache.tryVacuum (c : Cache V) (now : Int) : Cache V :=
  if c.pendingVacuum then c
  else if c.ttlCount = 0 &&
      (!c.options.maxTruthy || c.data.length < c.options.maxVal) then c
  else if decide (now - c.lastVacuumAt ≥ c.options.vacuumFrequency) ||
      (c.options.maxTruthy &&
        decide ((c.data.length : ℚ) ≥ (c.options.maxVal : ℚ) * c.options.vacuumOverflowFactor)) then
    if c.options.vacuumInBackground then { c with pendingVacuum := true }
    else c.vacuum now
  else c

/-- `get(key)`. -/
def Cache.get (c : Cache V) (k : String) (now : Int) : Option V × Cache V :=
  match c.data.lookup k with
  | none => (none, c.tryVacuum now)
  | some e =>
    if e.hasExpired now then
      (none, (c.doDelete k).tryVacuum now)
    else if c.options.maxTruthy then
      (some e.value, (((c.detachKey k).attachHeadKey k)).tryVacuum now)
    else
      (some e.value, c.tryVacuum now)

/-- `has(key)`: `this.get(key) !== undefined`, including `get`'s side
effects. -/
def Cache.has (c : Cache V) (k : String) (now : Int) : Bool × Cache V :=
  let r := c.get k now
  (r.1.isSome, r.2)

/-- `del(key)`. -/
def Cache.del (c : Cache V) (k : String) : Bool × Cache V :=
  match c.data.lookup k with
  | none => (false, c)
  | some _ => (true, c.doDelete k)

/-- The resolved ttl of a `set` call: an explicit per-call value (number or
null) wins, an omitted (`undefined`) argument falls back to the cache-wide
default. -/
def resolveTtl (o : Options V) (ttlArg : Option (Option Int)) : Option Int :=
  match ttlArg with
  | none => o.ttl
  | some t => t

/-- The attach-and-insert tail of `set` for a fresh entry `e`: attach at the
recency-list head when LRU is on (the new entry gets `next = old head`,
`prev = null`), insert into the store (`Map.set`), bump the finite-ttl counter
when the resolved ttl is truthy. -/
def Cache.insertNew (c : Cache V) (k : String) (e : EntryData V) : Cache V :=
  if c.options.maxTruthy then
    { c.attachHeadNewC k with
      data := mapSet k { e with next := c.head, prev := none }
        (c.attachHeadNewC k).data,
      ttlCount := if ttlTruthy e.ttl then c.ttlCount + 1 else c.ttlCount }
  else
    { c with
      data := mapSet k e c.data,
      ttlCount := if ttlTruthy e.ttl then c.ttlCount + 1 else c.ttlCount }

/-- The body of `set(key, value, ttl?)` for a defined value, up to (but not
including) the final `_tryVacuum` call: delete any existing entry first, then
create the entry with the resolved ttl and `createdAt = now` and run the
attach-and-insert tail. -/
def Cache.setMid (c : Cache V) (k : String) (v : V)
    (ttlArg : Option (Option Int)) (now : Int) : Cache V :=
  (if (c.data.lookup k).isSome then c.doDelete k else c).insertNew k
    { value := v, ttl := resolveTtl c.options ttlArg, timestamp := now }

/-- `set(key, value, ttl?)`.  `value = none` is the absent sentinel
(`undefined`, delegated to `del`), `ttlArg = none` an omitted ttl argument,
`ttlArg = some none` an explicit null ttl. -/
def Cache.set (c : Cache V) (k : String) (value : Option V)
    (ttlArg : Option (Option Int)) (now : Int) : Bool × Cache V :=
  match value with
  | none => c.del k
  | some v => (true, (c.setMid k v ttlArg now).tryVacuum now)

/-- `keys()`: an immediate (non-deferred) `_vacuum`, then the store's keys. -/
def Cache.keysOp (c : Cache V) (now : Int) : List String × Cache V :=
  let c := c.vacuum now
  (c.data.map Prod.fst, c)

/-- `emptyOut()`: delete every key of a snapshot of the store (each `del`
only removes its own key, so live iteration coincides with the snapshot). -/
def Cache.emptyOut (c : Cache V) : Cache V :=
  (c.data.map Prod.fst).foldl (fun c k => (c.del k).2) c

/-! ## The provider-coalescing layer (`provide`)

The cache runs under single-threaded cooperative scheduling, so the promise
machinery of `provide` embeds as explicit sequential steps:

* a call to `provide` is the synchronous part of the method (key derivation,
  cache check, in-flight registry check, chain creation and registration);
* the chain `Promise.resolve().then(provider).finally(cleanup).then(store)`
  settling later is the separate `settle` step (provider invocation, registry
  cleanup, store-on-success), which the scheduler runs atomically with respect
  to other cache operations.

Promises are identified by `Nat` handles.  `invocations` counts provider
invocations and `resolved` records each settled handle's outcome; both are
observation fields used to state the claims, not JS state. -/

/-- The result a caller of `provide` observes synchronously. -/
inductive ProvideRes (V : Type) where
  /-- `provider` is not configured: a synchronous configuration error. -/
  | configError : ProvideRes V
  /-- An already-resolved promise carrying `get`'s result. -/
  | value (v : Option V) : ProvideRes V
  /-- A pending promise handle (fresh or the reused in-flight one). -/
  | pending (id : Nat) : ProvideRes V
  deriving Repr, DecidableEq

/-- The cache together with the provider-coalescer state
(`_providerPromises`), plus the observation fields. -/
structure PState (V : Type) where
  cache : Cache V
  promises : List (String × Nat) := []
  nextId : Nat := 0
  invocations : Nat := 0
  resolved : List (Nat × Except Unit (Option V)) := []

/-- Key derivation for `provide`: the user-supplied `providerArgsToKey`, or
stringify-and-join with `','`. -/
def deriveKey (o : Options V) (args : List String) : String :=
  match o.providerArgsToKey with
  | some f => f args
  | none => String.intercalate "," args

/-- The synchronous part of `provide(...args)`. -/
def PState.provide (s : PState V) (args : List String) (now : Int) :
    ProvideRes V × PState V :=
  match s.cache.options.provider with
  | none => (ProvideRes.configError, s)
  | some _ =>
    let key := deriveKey s.cache.options args
    let h := s.cache.has key now
    if h.1 then
      let g := h.2.get key now
      (ProvideRes.value g.1, { s with cache := g.2 })
    else
      let s := { s with cache := h.2 }
      match s.promises.lookup key with
      | some pid => (ProvideRes.pending pid, s)
      | none =>
        (ProvideRes.pending s.nextId,
          { s with
            promises := s.promises ++ [(key, s.nextId)],
            nextId := s.nextId + 1 })

/-- The promise chain of an outstanding `provide` fetch settling: invoke the
provider, clear the in-flight registration (`finally`, on success and failure
alike), then on success store the value with `set` (an `undefined` provider
result makes `set` delegate to `del`, i.e. nothing is stored); the outcome is
what the handle's awaiters observe. -/
def PState.settle (s : PState V) (key : String) (args : List String)
    (now : Int) : PState V :=
  match s.promises.lookup key, s.cache.options.provider with
  | some pid, some f =>
    let outcome := f args
    let s := { s with
      invocations := s.invocations + 1,
      promises := mapDelete key s.promises }
    match outcome with
    | Except.ok v =>
      { s with
        cache := (s.cache.set key v none now).2,
        resolved := (pid, Except.ok v) :: s.resolved }
    | Except.error u => { s with resolved := (pid, Except.error u) :: s.resolved }
  | _, _ => s

/-! ## Invariants and the abstract recency order -/

/-- The number of stored entries with a truthy (finite, nonzero) ttl. -/
def countTtl (d : Store V) : Nat := (d.filter fun p => ttlTruthy p.2.ttl).length

/-- Every binding of `k` in the store carries value `v` (vacuous when `k` is
unbound).  The cache's transformations only ever delete bindings or rewrite
their recency pointers, so this survives every operation that does not re-set
`k`. -/
def KeyVal (d : Store V) (k : String) (v : V) : Prop :=
  ∀ p ∈ d, p.1 = k → p.2.value = v

/-- Structural well-formedness the JS `Map` provides for free plus the
finite-ttl counter bookkeeping: unique keys, and `_ttlCount` equal to the
number of finite-ttl entries. -/
def TtlSync (c : Cache V) : Prop :=
  (c.data.map Prod.fst).Nodup ∧ c.ttlCount = (countTtl c.data : Int)

/-- No stored entry is TTL-expired at `t`. -/
def NoExpired (d : Store V) (t : Int) : Prop :=
  ∀ p ∈ d, p.2.hasExpired t = false

/-- The TTL-relevant fields (ttl, createdAt) of the entry stored at `j`:
recency-pointer surgery never changes them. -/
def entryTT (d : Store V) (j : String) : Option (Option Int × Int) :=
  (d.lookup j).map fun e => (e.ttl, e.timestamp)

/-- Whether the entry stored at `j` (if any) is TTL-expired at `t`. -/
def expiredAt (d : Store V) (j : String) (t : Int) : Bool :=
  match d.lookup j with
  | some e => e.hasExpired t
  | none => false

/-- The forward pointer of the entry stored at `j` (if any). -/
def nextAt (d : Store V) (j : String) : Option (Option String) :=
  (d.lookup j).map fun e => e.next

/-- The backward pointer of the entry stored at `j` (if any). -/
def prevAt (d : Store V) (j : String) : Option (Option String) :=
  (d.lookup j).map fun e => e.prev

/-- `j` and `k` are adjacent on the recency list: `j`'s entry points forward
to `k` and `k`'s entry points back to `j`. -/
def linked (c : Cache V) (j k : String) : Prop :=
  (∃ e, c.data.lookup j = some e ∧ e.next = some k) ∧
  (∃ e, c.data.lookup k = some e ∧ e.prev = some j)

/-- The recency list, walked from head to tail, is exactly `ab`: `head`/`tail`
are its ends, consecutive elements are doubly linked, the ends' outward
pointers are null, and the store's key set is exactly `ab`'s members. -/
def listOk (c : Cache V) (ab : List String) : Prop :=
  ab.Nodup ∧
  c.head = ab.head? ∧
  c.tail = ab.getLast? ∧
  List.Chain' (linked c) ab ∧
  (∀ j, ab.head? = some j → ∃ e, c.data.lookup j = some e ∧ e.prev = none) ∧
  (∀ j, ab.getLast? = some j → ∃ e, c.data.lookup j = some e ∧ e.next = none) ∧
  (∀ j, (c.data.lookup j).isSome ↔ j ∈ ab)

/-- Mid-`_doDelete` well-formedness: `k` has been detached from the list but
still sits in the lookup. -/
def listOkExcept (c : Cache V) (ab : List String) (k : String) : Prop :=
  ab.Nodup ∧ k ∉ ab ∧
  c.head = ab.head? ∧
  c.tail = ab.getLast? ∧
  List.Chain' (linked c) ab ∧
  (∀ j, ab.head? = some j → ∃ e, c.data.lookup j = some e ∧ e.prev = none) ∧
  (∀ j, ab.getLast? = some j → ∃ e, c.data.lookup j = some e ∧ e.next = none) ∧
  (∀ j, (c.data.lookup j).isSome ↔ (j ∈ ab ∨ j = k))

/-- The full invariant: store well-formedness plus the recency list walking
exactly the store's key set in order `ab` (most-recently-touched first). -/
def Inv (c : Cache V) (ab : List String) : Prop :=
  TtlSync c ∧ listOk c ab

/-- The public operations (the clock reading is part of the step;
`vacuumNow` is a deferred background sweep firing, and `has` coincides with
`get`; `provide`'s store effects factor through `has`/`get`/`set`). -/
inductive Op (V : Type) where
  | get (k : String) (t : Int)
  | set (k : String) (v : Option V) (ttlArg : Option (Option Int)) (t : Int)
  | del (k : String)
  | keys (t : Int)
  | emptyOut
  | vacuumNow (t : Int)

/-- Run one public operation. -/
def applyOp (c : Cache V) : Op V → Cache V
  | .get k t => (c.get k t).2
  | .set k v ttlArg t => (c.set k v ttlArg t).2
  | .del k => (c.del k).2
  | .keys t => (c.keysOp t).2
  | .emptyOut => c.emptyOut
  | .vacuumNow t => c.vacuum t

/-- Whether the entry stored at `k` (if any) is unexpired at `t`. -/
def nonExpiredIn (c : Cache V) (t : Int) (k : String) : Bool :=
  match c.data.lookup k with
  | some e => !e.hasExpired t
  | none => true

/-- What `_vacuum` does to the abstract recency order: drop the expired keys
(order preserved), then keep only the first `max` (overflow is eaten from the
tail). -/
def abVacuum (c : Cache V) (t : Int) (ab : List String) : List String :=
  (ab.filter (nonExpiredIn c t)).take c.options.maxVal

/-- What `_tryVacuum` does to the abstract recency order: mirror its decision
on the concrete state `c` (the state at the moment `_tryVacuum` runs); only an
inline (non-background) sweep changes the order. -/
def abTryVacuum (c : Cache V) (t : Int) (ab : List String) : List String :=
  if c.pendingVacuum then ab
  else if c.ttlCount = 0 &&
      (!c.options.maxTruthy || c.data.length < c.options.maxVal) then ab
  else if decide (t - c.lastVacuumAt ≥ c.options.vacuumFrequency) ||
      (c.options.maxTruthy &&
        decide ((c.data.length : ℚ) ≥ (c.options.maxVal : ℚ) * c.options.vacuumOverflowFactor)) then
    if c.options.vacuumInBackground then ab else abVacuum c t ab
  else ab

/-- The abstract recency order after each public operation: a touched key
moves to the front (most-recently-touched), deletion erases, a sweep filters
expired keys and truncates overflow at the tail (least-recently-touched
side). -/
def abOp (c : Cache V) (ab : List String) : Op V → List String
  | .get k t =>
    match c.data.lookup k with
    | none => abTryVacuum c t ab
    | some e =>
      if e.hasExpired t then abTryVacuum (c.doDelete k) t (ab.erase k)
      else if c.options.maxTruthy then
        abTryVacuum ((c.detachKey k).attachHeadKey k) t (k :: ab.erase k)
      else abTryVacuum c t ab
  | .set k v ttlArg t =>
    match v with
    | none => ab.erase k
    | some v' => abTryVacuum (c.setMid k v' ttlArg t) t (k :: ab.erase k)
  | .del k => ab.erase k
  | .keys t => abVacuum c t ab
  | .emptyOut => []
  | .vacuumNow t => abVacuum c t ab

/-! ## Concrete scenario states -/

/-- All-default options (`DEFAULT_OPTIONS` merged with nothing). -/
def defaultOpts (V : Type) : Options V := {}

/-- Run a sequence of `has` checks at one clock value, threading the cache
state, collecting the answers. -/
def hasRun (c : Cache V) (t : Int) (ks : List String) : List Bool × Cache V :=
  ks.foldl (fun acc k =>
    let r := acc.2.has k t
    (acc.1 ++ [r.1], r.2)) ([], c)

/-- The spec's TTL scenario: `ttl=100`, clock fixed at 0; set `a` with the
default ttl, `b` with an explicit null ttl, `c` with ttl 200. -/
def ttlScenario : Cache Nat :=
  let c := Cache.init { ttl := some 100 } 0
  let c := (c.set "a" (some 1) none 0).2
  let c := (c.set "b" (some 2) (some none) 0).2
  (c.set "c" (some 3) (some (some 200)) 0).2

/-! ## Store lemmas -/

theorem lookup_cons (j a : String) (b : α) (ps : List (String × α)) :
    List.lookup j ((a, b) :: ps) = if j = a then some b else List.lookup j ps := by
  by_cases h : j = a
  · subst h; simp [List.lookup]
  · simp [List.lookup, h, beq_false_of_ne h]

theorem mapUpdate_cons (k a : String) (b : EntryData V)
    (f : EntryData V → EntryData V) (ps : Store V) :
    mapUpdate k f ((a, b) :: ps) =
      (if a = k then (k, f b) else (a, b)) :: mapUpdate k f ps := by
  by_cases h : a = k <;> simp [mapUpdate, h]

theorem lookup_mapUpdate (k j : String) (f : EntryData V → EntryData V)
    (l : Store V) :
    (mapUpdate k f l).lookup j =
      if j = k then (l.lookup j).map f else l.lookup j := by
  induction l with
  | nil => by_cases h : j = k <;> simp [mapUpdate, h]
  | cons p ps ih =>
    obtain ⟨a, b⟩ := p
    rw [mapUpdate_cons]
    by_cases hak : a = k
    · rw [if_pos hak]
      subst hak
      by_cases hja : j = a <;> simp [lookup_cons, hja, ih]
    · rw [if_neg hak, lookup_cons]
      by_cases hja : j = a
      · have hjk : j ≠ k := fun hc => hak (hja.symm.trans hc)
        rw [if_pos hja, if_neg hjk, lookup_cons, if_pos hja]
      · rw [if_neg hja, ih, lookup_cons]
        by_cases hjk : j = k
        · rw [if_pos hjk, if_pos hjk, if_neg hja]
        · rw [if_neg hjk, if_neg hjk, if_neg hja]

theorem lookup_mapDelete_ne {j k : String} (h : j ≠ k) (l : List (String × α)) :
    (mapDelete k l).lookup j = l.lookup j := by
  induction l with
  | nil => simp [mapDelete]
  | cons p ps ih =>
    obtain ⟨a, b⟩ := p
    by_cases hak : a = k
    · subst hak
      simp [mapDelete, lookup_cons, h, ih]
    · simp only [mapDelete, if_neg hak]
      by_cases hja : j = a <;> simp [lookup_cons, hja, ih]

theorem lookup_eq_none_iff (l : List (String × α)) (k : String) :
    l.lookup k = none ↔ k ∉ l.map Prod.fst := by
  induction l with
  | nil => simp
  | cons p ps ih =>
    obtain ⟨a, b⟩ := p
    by_cases hka : k = a
    · subst hka; simp [lookup_cons]
    · simp [lookup_cons, hka, ih, Ne.symm hka]

theorem lookup_isSome_iff (l : List (String × α)) (k : String) :
    (l.lookup k).isSome ↔ k ∈ l.map Prod.fst := by
  rw [← not_iff_not, Option.not_isSome_iff_eq_none]
  exact lookup_eq_none_iff l k

theorem lookup_mapDelete_self {k : String} {l : List (String × α)}
    (hnd : (l.map Prod.fst).Nodup) : (mapDelete k l).lookup k = none := by
  induction l with
  | nil => simp [mapDelete]
  | cons p ps ih =>
    obtain ⟨a, b⟩ := p
    simp only [List.map_cons, List.nodup_cons] at hnd
    by_cases hak : a = k
    · subst hak
      simp only [mapDelete, if_pos rfl]
      exact (lookup_eq_none_iff ps a).2 hnd.1
    · have hka : k ≠ a := fun hc => hak hc.symm
      simp [mapDelete, hak, lookup_cons, hka, ih hnd.2]

theorem lookup_append_of_none {j : String} {l : List (String × α)}
    (h : l.lookup j = none) (l₂ : List (String × α)) :
    (l ++ l₂).lookup j = l₂.lookup j := by
  induction l with
  | nil => rfl
  | cons p ps ih =>
    obtain ⟨a, b⟩ := p
    rw [lookup_cons] at h
    by_cases hja : j = a
    · rw [if_pos hja] at h; exact absurd h (by simp)
    · rw [if_neg hja] at h
      rw [List.cons_append, lookup_cons, if_neg hja]
      exact ih h

theorem lookup_append_of_some {j : String} {e : α} {l : List (String × α)}
    (h : l.lookup j = some e) (l₂ : List (String × α)) :
    (l ++ l₂).lookup j = some e := by
  induction l with
  | nil => simp at h
  | cons p ps ih =>
    obtain ⟨a, b⟩ := p
    rw [lookup_cons] at h
    rw [List.cons_append, lookup_cons]
    by_cases hja : j = a
    · rwa [if_pos hja] at h ⊢
    · rw [if_neg hja] at h ⊢
      exact ih h

theorem mapSet_pos {k : String} {l : Store V} (hs : (l.lookup k).isSome)
    (v : EntryData V) : mapSet k v l = mapUpdate k (fun _ => v) l := by
  unfold mapSet mapUpdate
  rw [if_pos hs]

theorem lookup_mapSet_self (k : String) (v : EntryData V) (l : Store V) :
    (mapSet k v l).lookup k = some v := by
  by_cases hs : (l.lookup k).isSome
  · rw [mapSet_pos hs, lookup_mapUpdate, if_pos rfl]
    obtain ⟨e, he⟩ := Option.isSome_iff_exists.mp hs
    rw [he]; rfl
  · unfold mapSet
    rw [if_neg hs]
    rw [Option.not_isSome_iff_eq_none] at hs
    rw [lookup_append_of_none hs, lookup_cons, if_pos rfl]

theorem lookup_mapSet_ne {j k : String} (h : j ≠ k) (v : EntryData V)
    (l : Store V) : (mapSet k v l).lookup j = l.lookup j := by
  by_cases hs : (l.lookup k).isSome
  · rw [mapSet_pos hs, lookup_mapUpdate, if_neg h]
  · unfold mapSet
    rw [if_neg hs]
    cases hj : l.lookup j with
    | none => rw [lookup_append_of_none hj, lookup_cons, if_neg h]; rfl
    | some e => rw [lookup_append_of_some hj]

theorem map_fst_mapUpdate (k : String) (f : EntryData V → EntryData V)
    (l : Store V) : (mapUpdate k f l).map Prod.fst = l.map Prod.fst := by
  induction l with
  | nil => rfl
  | cons p ps ih =>
    obtain ⟨a, b⟩ := p
    rw [mapUpdate_cons]
    by_cases hak : a = k <;> simp [hak, ih]

theorem map_fst_mapDelete (k : String) (l : List (String × α)) :
    (mapDelete k l).map Prod.fst = (l.map Prod.fst).erase k := by
  induction l with
  | nil => rfl
  | cons p ps ih =>
    obtain ⟨a, b⟩ := p
    by_cases hak : a = k
    · subst hak; simp [mapDelete, List.erase_cons]
    · simp [mapDelete, hak, List.erase_cons, Ne.symm hak, ih]

theorem map_fst_mapSet_append {k : String} {l : Store V}
    (h : l.lookup k = none) (v : EntryData V) :
    (mapSet k v l).map Prod.fst = l.map Prod.fst ++ [k] := by
  simp [mapSet, h]

theorem mem_of_lookup {l : List (String × α)} {k : String} {e : α}
    (h : l.lookup k = some e) : (k, e) ∈ l := by
  induction l with
  | nil => simp [List.lookup] at h
  | cons p ps ih =>
    obtain ⟨a, b⟩ := p
    rw [lookup_cons] at h
    by_cases hka : k = a
    · rw [if_pos hka] at h
      subst hka
      simp only [Option.some.injEq] at h
      subst h
      exact List.mem_cons_self _ _
    · rw [if_neg hka] at h
      exact List.mem_cons_of_mem _ (ih h)

theorem mapDelete_subset {j : String} {l : List (String × α)} :
    ∀ p ∈ mapDelete j l, p ∈ l := by
  induction l with
  | nil => simp [mapDelete]
  | cons q qs ih =>
    intro p hp
    unfold mapDelete at hp
    by_cases hqj : q.1 = j
    · rw [if_pos hqj] at hp
      exact List.mem_cons_of_mem _ hp
    · rw [if_neg hqj] at hp
      rcases List.mem_cons.mp hp with h | h
      · exact h ▸ List.mem_cons_self _ _
      · exact List.mem_cons_of_mem _ (ih p h)

/-! ## `KeyVal` preservation: nothing but a re-`set` of `k` changes the value
stored under `k`. -/

theorem KeyVal_mapUpdate {d : Store V} {k : String} {v : V} (j : String)
    (f : EntryData V → EntryData V) (hf : ∀ e, (f e).value = e.value)
    (h : KeyVal d k v) : KeyVal (mapUpdate j f d) k v := by
  intro p hp hpk
  simp only [mapUpdate, List.mem_map] at hp
  obtain ⟨q, hq, hpq⟩ := hp
  by_cases hqj : q.1 = j
  · rw [if_pos hqj] at hpq
    subst hpq
    simp only
    rw [hf]
    exact h q hq (by simpa [hqj] using hpk)
  · rw [if_neg hqj] at hpq
    subst hpq
    exact h q hq hpk

theorem KeyVal_mapDelete {d : Store V} {k : String} {v : V} (j : String)
    (h : KeyVal d k v) : KeyVal (mapDelete j d) k v :=
  fun p hp hpk => h p (mapDelete_subset p hp) hpk

theorem KeyVal_detachKey {c : Cache V} {k : String} {v : V} (j : String)
    (h : KeyVal c.data k v) : KeyVal (c.detachKey j).data k v := by
  unfold Cache.detachKey
  cases hl : c.data.lookup j with
  | none => exact h
  | some e =>
    simp only
    unfold detachData
    cases e.next <;> cases e.prev <;>
      (first
        | exact KeyVal_mapUpdate _ _ (fun _ => rfl)
            (KeyVal_mapUpdate _ _ (fun _ => rfl)
              (KeyVal_mapUpdate _ _ (fun _ => rfl) h))
        | exact KeyVal_mapUpdate _ _ (fun _ => rfl)
            (KeyVal_mapUpdate _ _ (fun _ => rfl) h)
        | exact KeyVal_mapUpdate _ _ (fun _ => rfl) h)

theorem KeyVal_doDelete {c : Cache V} {k : String} {v : V} (j : String)
    (h : KeyVal c.data k v) : KeyVal (c.doDelete j).data k v := by
  unfold Cache.doDelete
  cases hl : c.data.lookup j with
  | none => exact h
  | some e =>
    simp only
    by_cases hm : c.options.maxTruthy = true
    · rw [if_pos hm]
      exact KeyVal_mapDelete _ (KeyVal_detachKey _ h)
    · rw [if_neg hm]
      exact KeyVal_mapDelete _ h

theorem KeyVal_vacuumTtlPass {k : String} {v : V} (t : Int) :
    ∀ (ks : List String) (c : Cache V), KeyVal c.data k v →
      KeyVal (vacuumTtlPass t ks c).data k v := by
  intro ks
  induction ks with
  | nil => intro c h; exact h
  | cons j js ih =>
    intro c h
    unfold vacuumTtlPass
    cases hl : c.data.lookup j with
    | none => exact ih c h
    | some e =>
      simp only
      by_cases hexp : e.hasExpired t = true
      · rw [if_pos hexp]
        by_cases hz : (c.doDelete j).ttlCount ≤ 0
        · rw [if_pos hz]
          exact KeyVal_doDelete _ h
        · rw [if_neg hz]
          exact ih _ (KeyVal_doDelete _ h)
      · rw [if_neg hexp]
        exact ih c h

theorem KeyVal_trimPass {k : String} {v : V} (maxN : Nat) :
    ∀ (fuel : Nat) (c : Cache V), KeyVal c.data k v →
      KeyVal (trimPass maxN fuel c).data k v := by
  intro fuel
  induction fuel with
  | zero => intro c h; exact h
  | succ n ih =>
    intro c h
    unfold trimPass
    by_cases hlen : c.data.length > maxN
    · rw [if_pos hlen]
      cases c.tail with
      | none => exact h
      | some j => exact ih _ (KeyVal_doDelete _ h)
    · rw [if_neg hlen]
      exact h

theorem KeyVal_vacuumTtlStep {c : Cache V} {k : String} {v : V} (t : Int)
    (h : KeyVal c.data k v) : KeyVal (vacuumTtlStep c t).data k v := by
  unfold vacuumTtlStep
  split
  · exact KeyVal_vacuumTtlPass _ _ _ h
  · exact h

theorem KeyVal_vacuumTrimStep {c : Cache V} {k : String} {v : V}
    (h : KeyVal c.data k v) : KeyVal (vacuumTrimStep c).data k v := by
  unfold vacuumTrimStep
  split
  · exact KeyVal_trimPass _ _ _ h
  · exact h

theorem KeyVal_vacuum {c : Cache V} {k : String} {v : V} (t : Int)
    (h : KeyVal c.data k v) : KeyVal (c.vacuum t).data k v :=
  KeyVal_vacuumTrimStep (KeyVal_vacuumTtlStep t h)

theorem KeyVal_tryVacuum {c : Cache V} {k : String} {v : V} (t : Int)
    (h : KeyVal c.data k v) : KeyVal (c.tryVacuum t).data k v := by
  unfold Cache.tryVacuum
  split_ifs <;> first | exact h | exact KeyVal_vacuum t h

theorem KeyVal_mapSet {k : String} {v : V} {e : EntryData V}
    (he : e.value = v) (l : Store V) : KeyVal (mapSet k e l) k v := by
  intro p hp hpk
  unfold mapSet at hp
  by_cases hs : (l.lookup k).isSome
  · rw [if_pos hs] at hp
    simp only [List.mem_map] at hp
    obtain ⟨q, _, hpq⟩ := hp
    by_cases hqk : q.1 = k
    · rw [if_pos hqk] at hpq; subst hpq; exact he
    · rw [if_neg hqk] at hpq; subst hpq; exact absurd hpk hqk
  · rw [if_neg hs] at hp
    rcases List.mem_append.mp hp with hin | hin
    · rw [Option.not_isSome_iff_eq_none, lookup_eq_none_iff] at hs
      exact absurd (List.mem_map.mpr ⟨p, hin, hpk⟩) hs
    · simp only [List.mem_singleton] at hin
      subst hin
      exact he

theorem KeyVal_insertNew {c : Cache V} {k : String} {v : V} {e : EntryData V}
    (he : e.value = v) : KeyVal (c.insertNew k e).data k v := by
  unfold Cache.insertNew
  split
  · refine KeyVal_mapSet ?_ _
    exact he
  · refine KeyVal_mapSet ?_ _
    exact he

theorem KeyVal_setMid (c : Cache V) (k : String) (v : V)
    (ttlArg : Option (Option Int)) (t : Int) :
    KeyVal (c.setMid k v ttlArg t).data k v :=
  KeyVal_insertNew rfl

/-! ## Store-shape preservation -/

theorem map_fst_detachData (e : EntryData V) (k : String) (d : Store V) :
    (detachData e k d).map Prod.fst = d.map Prod.fst := by
  unfold detachData
  cases e.next <;> cases e.prev <;> simp [map_fst_mapUpdate]

theorem map_fst_attachData (h : Option String) (k : String) (d : Store V) :
    (attachData h k d).map Prod.fst = d.map Prod.fst := by
  unfold attachData
  cases h <;> simp [map_fst_mapUpdate]

theorem data_detachKey (c : Cache V) (j : String) :
    (c.detachKey j).data = match c.data.lookup j with
      | none => c.data
      | some e => detachData e j c.data := by
  unfold Cache.detachKey
  cases c.data.lookup j <;> rfl

theorem map_fst_detachKey (c : Cache V) (j : String) :
    (c.detachKey j).data.map Prod.fst = c.data.map Prod.fst := by
  rw [data_detachKey]
  cases c.data.lookup j
  · rfl
  · exact map_fst_detachData _ _ _

theorem data_doDelete (c : Cache V) (j : String) :
    (c.doDelete j).data = match c.data.lookup j with
      | none => c.data
      | some _ =>
          mapDelete j (if c.options.maxTruthy then (c.detachKey j).data else c.data) := by
  unfold Cache.doDelete
  cases c.data.lookup j
  · rfl
  · simp only
    split_ifs <;> rfl

theorem map_fst_doDelete (c : Cache V) (j : String) :
    (c.doDelete j).data.map Prod.fst = (c.data.map Prod.fst).erase j := by
  rw [data_doDelete]
  cases hl : c.data.lookup j with
  | none =>
    rw [lookup_eq_none_iff] at hl
    exact (List.erase_of_not_mem hl).symm
  | some e =>
    simp only
    split_ifs with hm
    · rw [map_fst_mapDelete, map_fst_detachKey]
    · rw [map_fst_mapDelete]

theorem lookup_doDelete_self {c : Cache V} {j : String}
    (hnd : (c.data.map Prod.fst).Nodup) :
    (c.doDelete j).data.lookup j = none := by
  rw [lookup_eq_none_iff, map_fst_doDelete]
  exact hnd.not_mem_erase

theorem has_false_of_lookup_none {c : Cache V} {k : String}
    (h : c.data.lookup k = none) (t : Int) : (c.has k t).1 = false := by
  unfold Cache.has Cache.get
  rw [h]
  rfl

/-! ## Options preservation: no operation changes the configuration. -/

theorem options_detachKey (c : Cache V) (j : String) :
    (c.detachKey j).options = c.options := by
  unfold Cache.detachKey
  cases c.data.lookup j <;> rfl

theorem options_doDelete (c : Cache V) (j : String) :
    (c.doDelete j).options = c.options := by
  unfold Cache.doDelete
  cases c.data.lookup j with
  | none => rfl
  | some e =>
    simp only
    split_ifs with h
    · exact options_detachKey c j
    · rfl

theorem options_vacuumTtlPass (t : Int) :
    ∀ (ks : List String) (c : Cache V),
      (vacuumTtlPass t ks c).options = c.options := by
  intro ks
  induction ks with
  | nil => intro c; rfl
  | cons j js ih =>
    intro c
    unfold vacuumTtlPass
    cases c.data.lookup j with
    | none => exact ih c
    | some e =>
      simp only
      split_ifs with h1 h2
      · exact options_doDelete c j
      · exact (ih _).trans (options_doDelete c j)
      · exact ih c

theorem options_trimPass (m : Nat) :
    ∀ (fuel : Nat) (c : Cache V), (trimPass m fuel c).options = c.options := by
  intro fuel
  induction fuel with
  | zero => intro c; rfl
  | succ n ih =>
    intro c
    unfold trimPass
    split_ifs with h
    · cases c.tail with
      | none => rfl
      | some j => exact (ih _).trans (options_doDelete c j)
    · rfl

theorem options_vacuum (c : Cache V) (t : Int) :
    (c.vacuum t).options = c.options := by
  unfold Cache.vacuum vacuumTrimStep vacuumTtlStep
  split_ifs <;>
    simp only [options_trimPass, options_vacuumTtlPass] <;> rfl

theorem options_tryVacuum (c : Cache V) (t : Int) :
    (c.tryVacuum t).options = c.options := by
  unfold Cache.tryVacuum
  split_ifs <;> first | rfl | exact options_vacuum c t

theorem options_insertNew (c : Cache V) (k : String) (e : EntryData V) :
    (c.insertNew k e).options = c.options := by
  unfold Cache.insertNew
  split_ifs <;> rfl

theorem options_setMid (c : Cache V) (k : String) (v : V)
    (ttlArg : Option (Option Int)) (t : Int) :
    (c.setMid k v ttlArg t).options = c.options := by
  unfold Cache.setMid
  rw [options_insertNew]
  split_ifs with h
  · exact options_doDelete c k
  · rfl

/-! ## Absent keys stay absent: no operation but a `set` of `k` creates a
binding for `k`. -/

theorem lookup_none_mapUpdate {d : Store V} {k : String}
    (h : d.lookup k = none) (j : String) (f : EntryData V → EntryData V) :
    (mapUpdate j f d).lookup k = none := by
  rw [lookup_mapUpdate]
  split_ifs with hjk
  · rw [h]; rfl
  · exact h

theorem lookup_none_mapDelete {d : List (String × α)} {k : String}
    (h : d.lookup k = none) (j : String) : (mapDelete j d).lookup k = none := by
  rw [lookup_eq_none_iff] at h ⊢
  rw [map_fst_mapDelete]
  exact fun hm => h (List.mem_of_mem_erase hm)

theorem lookup_none_detachData {d : Store V} {k : String}
    (h : d.lookup k = none) (e : EntryData V) (j : String) :
    (detachData e j d).lookup k = none := by
  obtain ⟨vv, tt, ts, pv, nx⟩ := e
  unfold detachData
  cases nx <;> cases pv <;>
    first
      | exact lookup_none_mapUpdate
          (lookup_none_mapUpdate (lookup_none_mapUpdate h _ _) _ _) _ _
      | exact lookup_none_mapUpdate (lookup_none_mapUpdate h _ _) _ _
      | exact lookup_none_mapUpdate h _ _

theorem lookup_none_detachKey {c : Cache V} {k : String}
    (h : c.data.lookup k = none) (j : String) :
    (c.detachKey j).data.lookup k = none := by
  rw [data_detachKey]
  cases c.data.lookup j with
  | none => exact h
  | some e => exact lookup_none_detachData h e j

theorem lookup_none_doDelete {c : Cache V} {k : String}
    (h : c.data.lookup k = none) (j : String) :
    (c.doDelete j).data.lookup k = none := by
  rw [data_doDelete]
  cases c.data.lookup j with
  | none => exact h
  | some e =>
    simp only
    split_ifs with hm
    · exact lookup_none_mapDelete (lookup_none_detachKey h j) j
    · exact lookup_none_mapDelete h j

theorem lookup_none_vacuumTtlPass {k : String} (t : Int) :
    ∀ (ks : List String) (c : Cache V), c.data.lookup k = none →
      (vacuumTtlPass t ks c).data.lookup k = none := by
  intro ks
  induction ks with
  | nil => intro c h; exact h
  | cons j js ih =>
    intro c h
    unfold vacuumTtlPass
    cases c.data.lookup j with
    | none => exact ih c h
    | some e =>
      simp only
      split_ifs with h1 h2
      · exact lookup_none_doDelete h j
      · exact ih _ (lookup_none_doDelete h j)
      · exact ih c h

theorem lookup_none_trimPass {k : String} (m : Nat) :
    ∀ (fuel : Nat) (c : Cache V), c.data.lookup k = none →
      (trimPass m fuel c).data.lookup k = none := by
  intro fuel
  induction fuel with
  | zero => intro c h; exact h
  | succ n ih =>
    intro c h
    unfold trimPass
    split_ifs with hlen
    · cases c.tail with
      | none => exact h
      | some j => exact ih _ (lookup_none_doDelete h j)
    · exact h

theorem lookup_none_vacuum {c : Cache V} {k : String}
    (h : c.data.lookup k = none) (t : Int) :
    (c.vacuum t).data.lookup k = none := by
  unfold Cache.vacuum vacuumTrimStep vacuumTtlStep
  split_ifs <;>
    first
      | exact lookup_none_trimPass _ _ _ (lookup_none_vacuumTtlPass _ _ _ h)
      | exact lookup_none_trimPass _ _ _ h
      | exact lookup_none_vacuumTtlPass _ _ _ h
      | exact h

theorem lookup_none_tryVacuum {c : Cache V} {k : String}
    (h : c.data.lookup k = none) (t : Int) :
    (c.tryVacuum t).data.lookup k = none := by
  unfold Cache.tryVacuum
  split_ifs <;> first | exact h | exact lookup_none_vacuum h t

/-! ## Behaviour of `tryVacuum` with background vacuuming, and of `has`. -/

theorem data_tryVacuum_bg {c : Cache V}
    (h : c.options.vacuumInBackground = true) (t : Int) :
    (c.tryVacuum t).data = c.data := by
  unfold Cache.tryVacuum
  split_ifs with h1 h2 h3 h4 <;> first | rfl | exact absurd h (by simp [h4])

theorem has_of_lookup_some_live {c : Cache V} {k : String} {e : EntryData V}
    (hl : c.data.lookup k = some e) (t : Int) (hx : e.hasExpired t = false)
    (hmx : c.options.maxTruthy = false) :
    (c.has k t).1 = true ∧ (c.has k t).2 = c.tryVacuum t := by
  unfold Cache.has Cache.get
  rw [hl]
  simp [hx, hmx]

theorem has_of_lookup_some_expired {c : Cache V} {k : String} {e : EntryData V}
    (hl : c.data.lookup k = some e) (t : Int) (hx : e.hasExpired t = true) :
    (c.has k t).1 = false := by
  unfold Cache.has Cache.get
  rw [hl]
  simp [hx]

theorem lookup_setMid_self_noLru {c : Cache V} {k : String}
    (hmx : c.options.maxTruthy = false) (v : V) (ttlArg : Option (Option Int))
    (t : Int) :
    (c.setMid k v ttlArg t).data.lookup k
      = some { value := v, ttl := resolveTtl c.options ttlArg, timestamp := t } := by
  unfold Cache.setMid Cache.insertNew
  have hopts : (if (c.data.lookup k).isSome then c.doDelete k else c).options
      = c.options := by
    split_ifs with h
    · exact options_doDelete c k
    · rfl
  rw [hopts, hmx]
  simp only [Bool.false_eq_true, if_false]
  exact lookup_mapSet_self _ _ _

/-! ## Claim C4 -/

/-- Claim C4 counterexample: on an empty cache, `set("a", undefined)`
delegates to `del`, which returns `false` because the key is absent — so
`set` does not return true for every value. -/
theorem claim_C4_counterexample :
    ((Cache.init (defaultOpts Nat) 0).set "a" none none 0).1 = false := rfl

/-- Claim C4 (amended): `set` returns true for every key, ttl and every
defined value; when the value is the absent sentinel it delegates to `del`
wholesale, returning `del`'s result (true iff the key was present). -/
theorem claim_C4_amended (c : Cache V) (k : String) (v : V)
    (ttlArg : Option (Option Int)) (t : Int) :
    (c.set k (some v) ttlArg t).1 = true ∧ c.set k none ttlArg t = c.del k :=
  ⟨rfl, rfl⟩

/-! ## Claim C5 -/

/-- Claim C5: `del(k)` returns true iff `k` was present in the entry store
immediately before the call, and `has(k)` is false immediately after
`del(k)`. -/
theorem claim_C5_del (c : Cache V) (k : String)
    (hnd : (c.data.map Prod.fst).Nodup) :
    ((c.del k).1 = (c.data.lookup k).isSome) ∧
      ∀ t, (((c.del k).2).has k t).1 = false := by
  constructor
  · unfold Cache.del
    cases hl : c.data.lookup k <;> simp
  · intro t
    unfold Cache.del
    cases hl : c.data.lookup k with
    | none => exact has_false_of_lookup_none hl t
    | some e => exact has_false_of_lookup_none (lookup_doDelete_self hnd) t

/-- Claim C5 witness: deleting the only key of a one-entry cache returns
true, and `has` is false afterwards. -/
theorem claim_C5_witness :
    (let c1 := ((Cache.init (defaultOpts Nat) 0).set "a" (some 7) none 0).2
     ((c1.del "a").1 = (c1.data.lookup "a").isSome) ∧
       ∀ t, (((c1.del "a").2).has "a" t).1 = false) :=
  claim_C5_del _ "a" (by decide)

/-! ## Claim C10 -/

/-- Claim C10: `del` never consults TTL: for an entry still in the store but
TTL-expired and not yet swept, `get` and `has` report the key absent, while
`del` on the same state returns true and removes the entry. -/
theorem claim_C10_del_ignores_ttl (c : Cache V) (k : String) (e : EntryData V)
    (t : Int) (hnd : (c.data.map Prod.fst).Nodup)
    (hl : c.data.lookup k = some e) (hexp : e.hasExpired t = true) :
    (c.get k t).1 = none ∧ (c.has k t).1 = false ∧
      (c.del k).1 = true ∧ ((c.del k).2).data.lookup k = none := by
  refine ⟨?_, ?_, ?_, ?_⟩
  · unfold Cache.get
    rw [hl]
    simp [hexp]
  · unfold Cache.has Cache.get
    rw [hl]
    simp [hexp]
  · unfold Cache.del
    rw [hl]
  · unfold Cache.del
    rw [hl]
    exact lookup_doDelete_self hnd

/-- Claim C10 witness: with `ttl = 100`, a key set at time 0 and inspected at
time 201 is invisible to `get`/`has` but `del` still returns true. -/
theorem claim_C10_witness :
    (let c1 := ((Cache.init ({ ttl := some 100 } : Options Nat) 0).set "a"
      (some 7) none 0).2
     (c1.get "a" 201).1 = none ∧ (c1.has "a" 201).1 = false ∧
       (c1.del "a").1 = true ∧ ((c1.del "a").2).data.lookup "a" = none) :=
  claim_C10_del_ignores_ttl _ "a" ⟨7, some 100, 0, none, none⟩ 201
    (by decide) (by decide) (by decide)

/-! ## Claim C1 -/

/-- Claim C1: for every key `k` and value `v`, `set(k, v)` followed by
`get(k)` returns `v`, unless the entry's TTL has elapsed by the time of the
`get` or the key was evicted in between (here: the entry written by `set`
still being in the store is the "not evicted" hypothesis, covering in
particular `set`'s own possibly-triggered sweep). -/
theorem claim_C1_set_then_get (c : Cache V) (k : String) (v : V)
    (ttlArg : Option (Option Int)) (t0 t1 : Int) (e : EntryData V)
    (hsurv : ((c.set k (some v) ttlArg t0).2).data.lookup k = some e)
    (hlive : e.hasExpired t1 = false) :
    (((c.set k (some v) ttlArg t0).2).get k t1).1 = some v := by
  have hkv : KeyVal ((c.set k (some v) ttlArg t0).2).data k v := by
    show KeyVal ((c.setMid k v ttlArg t0).tryVacuum t0).data k v
    exact KeyVal_tryVacuum _ (KeyVal_setMid c k v ttlArg t0)
  have hval : e.value = v := hkv _ (mem_of_lookup hsurv) rfl
  unfold Cache.get
  rw [hsurv]
  simp only [hlive, Bool.false_eq_true, if_false]
  split <;> simp [hval]

/-- Claim C1 witness: a freshly set key is read back immediately. -/
theorem claim_C1_witness :
    ((((Cache.init (defaultOpts Nat) 0).set "a" (some 5) none 0).2).get "a" 0).1
      = some 5 :=
  claim_C1_set_then_get _ "a" 5 none 0 0 ⟨5, none, 0, none, none⟩
    (by decide) (by decide)

/-! ## Claim C3 -/

/-- Claim C3: TTL expiry uses strict greater-than on elapsed time versus ttl,
a per-call null ttl never expires, and a per-call ttl overrides the cache-wide
default: in the `ttl=100` scenario (clock fixed at 0; `a` with the default
ttl, `b` with null, `c` with 200), sequential `has` checks on `[a, b, c]`
yield `[false, true, true]` at clock 101 and `[false, true, false]` at clock
201; and in general a key set at time 0 with a (nonzero) ttl `T > 0` is
present for `has` at time T and absent at time T + 1. -/
theorem claim_C3_ttl :
    ((hasRun ttlScenario 101 ["a", "b", "c"]).1 = [false, true, true] ∧
      (hasRun (hasRun ttlScenario 101 ["a", "b", "c"]).2 201 ["a", "b", "c"]).1
        = [false, true, false]) ∧
    ∀ (T : Int), 0 < T → ∀ (v : Nat) (k : String),
      ((((Cache.init (defaultOpts Nat) 0).set k (some v) (some (some T)) 0).2.has
          k T).1 = true) ∧
      (((((Cache.init (defaultOpts Nat) 0).set k (some v) (some (some T)) 0).2.has
          k T).2).has k (T + 1)).1 = false := by
  refine ⟨⟨by decide, by decide⟩, ?_⟩
  intro T hT v k
  have hTne : T ≠ 0 := hT.ne'
  have hbgmid : ((Cache.init (defaultOpts Nat) 0).setMid k v (some (some T))
      0).options.vacuumInBackground = true := by
    rw [options_setMid]
    rfl
  have hl : ((Cache.init (defaultOpts Nat) 0).set k (some v) (some (some T))
      0).2.data.lookup k = some { value := v, ttl := some T, timestamp := 0 } := by
    show (((Cache.init (defaultOpts Nat) 0).setMid k v (some (some T))
      0).tryVacuum 0).data.lookup k = _
    rw [data_tryVacuum_bg hbgmid]
    refine lookup_setMid_self_noLru ?_ v (some (some T)) 0
    rfl
  have hmx : ((Cache.init (defaultOpts Nat) 0).set k (some v) (some (some T))
      0).2.options.maxTruthy = false := by
    show (((Cache.init (defaultOpts Nat) 0).setMid k v (some (some T))
      0).tryVacuum 0).options.maxTruthy = _
    rw [options_tryVacuum, options_setMid]
    rfl
  have hbg : ((Cache.init (defaultOpts Nat) 0).set k (some v) (some (some T))
      0).2.options.vacuumInBackground = true := by
    show (((Cache.init (defaultOpts Nat) 0).setMid k v (some (some T))
      0).tryVacuum 0).options.vacuumInBackground = _
    rw [options_tryVacuum, options_setMid]
    rfl
  have hnexp : EntryData.hasExpired
      { value := v, ttl := some T, timestamp := 0 } T = false := by
    simp [EntryData.hasExpired]
  have h1 := has_of_lookup_some_live hl T hnexp hmx
  refine ⟨h1.1, ?_⟩
  rw [h1.2]
  have hl2 : (((Cache.init (defaultOpts Nat) 0).set k (some v) (some (some T))
      0).2.tryVacuum T).data.lookup k
      = some { value := v, ttl := some T, timestamp := 0 } := by
    rw [data_tryVacuum_bg hbg]
    exact hl
  have hexp : EntryData.hasExpired
      ({ value := v, ttl := some T, timestamp := 0 } : EntryData Nat)
      (T + 1) = true := by
    simp [EntryData.hasExpired, hTne]
  exact has_of_lookup_some_expired hl2 (T + 1) hexp

/-- Claim C3 witness: the general part instantiated at ttl 5. -/
theorem claim_C3_witness :
    (0 : Int) < 5 ∧
      ((((Cache.init (defaultOpts Nat) 0).set "x" (some 3) (some (some 5))
          0).2.has "x" 5).1 = true ∧
        (((((Cache.init (defaultOpts Nat) 0).set "x" (some 3) (some (some 5))
          0).2.has "x" 5).2).has "x" 6).1 = false) :=
  ⟨by decide, claim_C3_ttl.2 5 (by decide) 3 "x"⟩

/-! ## The provider coalescer: helper characterizations -/

theorem has_state_of_lookup_none {c : Cache V} {k : String}
    (h : c.data.lookup k = none) (t : Int) :
    (c.has k t).2 = c.tryVacuum t := by
  unfold Cache.has Cache.get
  rw [h]

theorem mapDelete_append_of_none {l : List (String × α)} {k : String}
    (h : l.lookup k = none) (x : α) : mapDelete k (l ++ [(k, x)]) = l := by
  induction l with
  | nil => simp [mapDelete]
  | cons p ps ih =>
    obtain ⟨a, b⟩ := p
    rw [lookup_cons] at h
    by_cases hka : k = a
    · rw [if_pos hka] at h; exact absurd h (by simp)
    · rw [if_neg hka] at h
      have hak : ¬a = k := fun hc => hka hc.symm
      rw [List.cons_append]
      unfold mapDelete
      rw [if_neg hak, ih h]

/-- A `provide` call that misses both the cache and the in-flight registry
returns a fresh pending handle and registers it. -/
theorem provide_fresh (s : PState V) (f : List String → Except Unit (Option V))
    (args : List String) (now : Int)
    (hprov : s.cache.options.provider = some f)
    (hkey : s.cache.data.lookup (deriveKey s.cache.options args) = none)
    (hnofl : s.promises.lookup (deriveKey s.cache.options args) = none) :
    s.provide args now = (ProvideRes.pending s.nextId,
      { s with cache := s.cache.tryVacuum now,
               promises := s.promises ++ [(deriveKey s.cache.options args, s.nextId)],
               nextId := s.nextId + 1 }) := by
  unfold PState.provide
  rw [hprov]
  have h1 : (s.cache.has (deriveKey s.cache.options args) now).1 = false :=
    has_false_of_lookup_none hkey now
  have h2 : (s.cache.has (deriveKey s.cache.options args) now).2
      = s.cache.tryVacuum now :=
    has_state_of_lookup_none hkey now
  simp only [h1, h2, hnofl, Bool.false_eq_true, if_false]

/-- A `provide` call that misses the cache but finds an outstanding fetch
returns the same pending handle and registers nothing. -/
theorem provide_reuses (s : PState V) (f : List String → Except Unit (Option V))
    (args : List String) (now : Int) (pid : Nat)
    (hprov : s.cache.options.provider = some f)
    (hkey : s.cache.data.lookup (deriveKey s.cache.options args) = none)
    (hfl : s.promises.lookup (deriveKey s.cache.options args) = some pid) :
    s.provide args now = (ProvideRes.pending pid,
      { s with cache := s.cache.tryVacuum now }) := by
  unfold PState.provide
  rw [hprov]
  have h1 : (s.cache.has (deriveKey s.cache.options args) now).1 = false :=
    has_false_of_lookup_none hkey now
  have h2 : (s.cache.has (deriveKey s.cache.options args) now).2
      = s.cache.tryVacuum now :=
    has_state_of_lookup_none hkey now
  simp only [h1, h2, hfl, Bool.false_eq_true, if_false]

/-- Settling a registered fetch: the provider runs, the registration is
cleared on success and failure alike, the outcome reaches the handle. -/
theorem settle_registered (s : PState V) (key : String) (args : List String)
    (now : Int) (pid : Nat) (f : List String → Except Unit (Option V))
    (hpid : s.promises.lookup key = some pid)
    (hprov : s.cache.options.provider = some f) :
    s.settle key args now = match f args with
      | Except.ok v =>
          { s with invocations := s.invocations + 1,
                   promises := mapDelete key s.promises,
                   cache := (s.cache.set key v none now).2,
                   resolved := (pid, Except.ok v) :: s.resolved }
      | Except.error u =>
          { s with invocations := s.invocations + 1,
                   promises := mapDelete key s.promises,
                   resolved := (pid, Except.error u) :: s.resolved } := by
  unfold PState.settle
  rw [hpid, hprov]

/-- One full fresh fetch: `provide` hands out a fresh pending handle and
settling it invokes the provider exactly once. -/
theorem provide_settle_once (s : PState V)
    (f : List String → Except Unit (Option V)) (args : List String) (now : Int)
    (hprov : s.cache.options.provider = some f)
    (hkey : s.cache.data.lookup (deriveKey s.cache.options args) = none)
    (hnofl : s.promises.lookup (deriveKey s.cache.options args) = none) :
    (s.provide args now).1 = ProvideRes.pending s.nextId ∧
    ((s.provide args now).2.settle (deriveKey s.cache.options args) args
        now).invocations = s.invocations + 1 := by
  have e1 := provide_fresh s f args now hprov hkey hnofl
  rw [e1]
  have hopts1 : (s.cache.tryVacuum now).options = s.cache.options :=
    options_tryVacuum s.cache now
  have hpid1 : (s.promises ++ [(deriveKey s.cache.options args, s.nextId)]).lookup
      (deriveKey s.cache.options args) = some s.nextId := by
    rw [lookup_append_of_none hnofl, lookup_cons, if_pos rfl]
  have hprov1 : (s.cache.tryVacuum now).options.provider = some f := by
    rw [hopts1]; exact hprov
  have e2 := settle_registered
    ({ s with cache := s.cache.tryVacuum now,
              promises := s.promises ++ [(deriveKey s.cache.options args, s.nextId)],
              nextId := s.nextId + 1 }) (deriveKey s.cache.options args) args now
    s.nextId f hpid1 hprov1
  rw [e2]
  cases hf : f args <;> exact ⟨rfl, rfl⟩

/-! ## Claim C8 -/

/-- Claim C8: two `provide` calls racing on the same derived key with no
cached value observe the same pending handle (the second call reuses the
first's registration); settling the outstanding fetch invokes the provider
exactly once, and the single recorded outcome for that shared handle is the
provider's result — both callers resolve to the same value. -/
theorem claim_C8_provide_coalesced (s : PState V)
    (f : List String → Except Unit (Option V)) (args : List String) (now : Int)
    (hprov : s.cache.options.provider = some f)
    (hkey : s.cache.data.lookup (deriveKey s.cache.options args) = none)
    (hnofl : s.promises.lookup (deriveKey s.cache.options args) = none) :
    (s.provide args now).1 = ProvideRes.pending s.nextId ∧
    ((s.provide args now).2.provide args now).1 = ProvideRes.pending s.nextId ∧
    (((s.provide args now).2.provide args now).2.settle
        (deriveKey s.cache.options args) args now).invocations
      = s.invocations + 1 ∧
    (((s.provide args now).2.provide args now).2.settle
        (deriveKey s.cache.options args) args now).resolved
      = (s.nextId, f args) :: s.resolved := by
  have e1 := provide_fresh s f args now hprov hkey hnofl
  rw [e1]
  have hopts1 : (s.cache.tryVacuum now).options = s.cache.options :=
    options_tryVacuum s.cache now
  have hkeyder : deriveKey (s.cache.tryVacuum now).options args
      = deriveKey s.cache.options args := by rw [hopts1]
  have hprov1 : (s.cache.tryVacuum now).options.provider = some f := by
    rw [hopts1]; exact hprov
  have hkey1 : (s.cache.tryVacuum now).data.lookup
      (deriveKey (s.cache.tryVacuum now).options args) = none := by
    rw [hkeyder]; exact lookup_none_tryVacuum hkey now
  have hfl1 : (s.promises ++ [(deriveKey s.cache.options args, s.nextId)]).lookup
      (deriveKey (s.cache.tryVacuum now).options args) = some s.nextId := by
    rw [hkeyder, lookup_append_of_none hnofl, lookup_cons, if_pos rfl]
  have e2 := provide_reuses
    ({ s with cache := s.cache.tryVacuum now,
              promises := s.promises ++ [(deriveKey s.cache.options args, s.nextId)],
              nextId := s.nextId + 1 }) f args now s.nextId hprov1 hkey1 hfl1
  rw [e2]
  have hopts2 : ((s.cache.tryVacuum now).tryVacuum now).options
      = s.cache.options := by
    rw [options_tryVacuum, hopts1]
  have hpid2 : (s.promises ++ [(deriveKey s.cache.options args, s.nextId)]).lookup
      (deriveKey s.cache.options args) = some s.nextId := by
    rw [lookup_append_of_none hnofl, lookup_cons, if_pos rfl]
  have hprov2 : ((s.cache.tryVacuum now).tryVacuum now).options.provider
      = some f := by
    rw [hopts2]; exact hprov
  have e3 := settle_registered
    ({ s with cache := (s.cache.tryVacuum now).tryVacuum now,
              promises := s.promises ++ [(deriveKey s.cache.options args, s.nextId)],
              nextId := s.nextId + 1 }) (deriveKey s.cache.options args) args now
    s.nextId f hpid2 hprov2
  rw [e3]
  cases hf : f args <;> exact ⟨rfl, rfl, rfl, rfl⟩

/-- Claim C8 witness: with a constant provider and an empty cache, two
`provide` calls share handle 0, settling invokes the provider once, and the
handle resolves to the provider's value. -/
theorem claim_C8_witness :
    (let s : PState Nat :=
      { cache := Cache.init
          { provider := some (fun _ => Except.ok (some 42)) } 0 }
     (s.provide ["a"] 0).1 = ProvideRes.pending 0 ∧
     ((s.provide ["a"] 0).2.provide ["a"] 0).1 = ProvideRes.pending 0 ∧
     (((s.provide ["a"] 0).2.provide ["a"] 0).2.settle
         (deriveKey s.cache.options ["a"]) ["a"] 0).invocations = 1 ∧
     (((s.provide ["a"] 0).2.provide ["a"] 0).2.settle
         (deriveKey s.cache.options ["a"]) ["a"] 0).resolved
       = [(0, Except.ok (some 42))]) :=
  claim_C8_provide_coalesced _ (fun _ => Except.ok (some 42)) ["a"] 0
    rfl rfl rfl

/-! ## Claim C9 -/

/-- Claim C9: when the provider fails, the failure is the recorded outcome of
the caller's handle, the in-flight registration is cleared through the same
cleanup path as success, nothing is stored in the cache for the derived key,
and a subsequent `provide` starts a fresh fetch (new handle; settling it
re-invokes the provider) instead of replaying the failure. -/
theorem claim_C9_provider_failure (s : PState V)
    (f : List String → Except Unit (Option V)) (args : List String) (now : Int)
    (hprov : s.cache.options.provider = some f)
    (hkey : s.cache.data.lookup (deriveKey s.cache.options args) = none)
    (hnofl : s.promises.lookup (deriveKey s.cache.options args) = none)
    (hfail : f args = Except.error ()) :
    (s.provide args now).1 = ProvideRes.pending s.nextId ∧
    (((s.provide args now).2.settle (deriveKey s.cache.options args) args
        now).resolved = (s.nextId, Except.error ()) :: s.resolved) ∧
    (((s.provide args now).2.settle (deriveKey s.cache.options args) args
        now).promises.lookup (deriveKey s.cache.options args) = none) ∧
    (((s.provide args now).2.settle (deriveKey s.cache.options args) args
        now).cache.data.lookup (deriveKey s.cache.options args) = none) ∧
    ((((s.provide args now).2.settle (deriveKey s.cache.options args) args
        now).provide args now).1 = ProvideRes.pending (s.nextId + 1)) ∧
    (((((s.provide args now).2.settle (deriveKey s.cache.options args) args
        now).provide args now).2.settle (deriveKey s.cache.options args) args
        now).invocations = s.invocations + 2) := by
  have e1 := provide_fresh s f args now hprov hkey hnofl
  rw [e1]
  have hopts1 : (s.cache.tryVacuum now).options = s.cache.options :=
    options_tryVacuum s.cache now
  have hpid1 : (s.promises ++ [(deriveKey s.cache.options args, s.nextId)]).lookup
      (deriveKey s.cache.options args) = some s.nextId := by
    rw [lookup_append_of_none hnofl, lookup_cons, if_pos rfl]
  have hprov1 : (s.cache.tryVacuum now).options.provider = some f := by
    rw [hopts1]; exact hprov
  have e2 := settle_registered
    ({ s with cache := s.cache.tryVacuum now,
              promises := s.promises ++ [(deriveKey s.cache.options args, s.nextId)],
              nextId := s.nextId + 1 }) (deriveKey s.cache.options args) args now
    s.nextId f hpid1 hprov1
  rw [hfail] at e2
  rw [e2]
  rw [mapDelete_append_of_none hnofl]
  have hkey1 : (s.cache.tryVacuum now).data.lookup
      (deriveKey s.cache.options args) = none := lookup_none_tryVacuum hkey now
  have hprov2 : (s.cache.tryVacuum now).options.provider = some f := hprov1
  have hkey2 : (s.cache.tryVacuum now).data.lookup
      (deriveKey (s.cache.tryVacuum now).options args) = none := by
    rw [hopts1]; exact hkey1
  have hnofl2 : s.promises.lookup
      (deriveKey (s.cache.tryVacuum now).options args) = none := by
    rw [hopts1]; exact hnofl
  refine ⟨rfl, rfl, hnofl, hkey1, ?_, ?_⟩
  · refine (provide_settle_once _ f args now ?_ ?_ ?_).1
    · exact hprov2
    · exact hkey2
    · exact hnofl2
  · rw [show deriveKey s.cache.options args
        = deriveKey (s.cache.tryVacuum now).options args from by rw [hopts1]]
    refine (provide_settle_once _ f args now ?_ ?_ ?_).2
    · exact hprov2
    · exact hkey2
    · exact hnofl2

/-- Claim C9 witness: a failing provider's rejection is recorded for handle 0,
the registry and cache stay clean, and a retry gets fresh handle 1, with two
provider invocations in total after the retry settles. -/
theorem claim_C9_witness :
    (let s : PState Nat :=
      { cache := Cache.init
          { provider := some (fun _ => (Except.error () : Except Unit (Option Nat))) } 0 }
     (s.provide ["a"] 0).1 = ProvideRes.pending 0 ∧
     (((s.provide ["a"] 0).2.settle (deriveKey s.cache.options ["a"]) ["a"]
         0).resolved = [(0, Except.error ())]) ∧
     (((s.provide ["a"] 0).2.settle (deriveKey s.cache.options ["a"]) ["a"]
         0).promises.lookup (deriveKey s.cache.options ["a"]) = none) ∧
     (((s.provide ["a"] 0).2.settle (deriveKey s.cache.options ["a"]) ["a"]
         0).cache.data.lookup (deriveKey s.cache.options ["a"]) = none) ∧
     ((((s.provide ["a"] 0).2.settle (deriveKey s.cache.options ["a"]) ["a"]
         0).provide ["a"] 0).1 = ProvideRes.pending 1) ∧
     (((((s.provide ["a"] 0).2.settle (deriveKey s.cache.options ["a"]) ["a"]
         0).provide ["a"] 0).2.settle (deriveKey s.cache.options ["a"]) ["a"]
         0).invocations = 2)) :=
  claim_C9_provider_failure _ (fun _ => Except.error ()) ["a"] 0
    rfl rfl rfl rfl

/-! ## Claim C6: the vacuum sweep removes exactly the expired entries -/

theorem lookup_of_mem_nodup {l : List (String × α)}
    (hnd : (l.map Prod.fst).Nodup) {k : String} {e : α}
    (hm : (k, e) ∈ l) : l.lookup k = some e := by
  induction l with
  | nil => simp at hm
  | cons p ps ih =>
    obtain ⟨a, b⟩ := p
    simp only [List.map_cons, List.nodup_cons] at hnd
    rcases List.mem_cons.mp hm with h | h
    · simp only [Prod.mk.injEq] at h
      obtain ⟨h1, h2⟩ := h
      subst h1; subst h2
      rw [lookup_cons, if_pos rfl]
    · have hka : k ≠ a := by
        intro hc
        subst hc
        exact hnd.1 (List.mem_map.mpr ⟨(k, e), h, rfl⟩)
      rw [lookup_cons, if_neg hka]
      exact ih hnd.2 h

theorem countTtl_cons (p : String × EntryData V) (ps : Store V) :
    countTtl (p :: ps)
      = (if ttlTruthy p.2.ttl then 1 else 0) + countTtl ps := by
  unfold countTtl
  rw [List.filter_cons]
  split_ifs <;> simp [Nat.add_comm]

theorem countTtl_mapUpdate (f : EntryData V → EntryData V) (k : String)
    (l : Store V) (hf : ∀ e, (f e).ttl = e.ttl) :
    countTtl (mapUpdate k f l) = countTtl l := by
  induction l with
  | nil => rfl
  | cons p ps ih =>
    obtain ⟨a, b⟩ := p
    rw [mapUpdate_cons]
    by_cases hak : a = k
    · rw [if_pos hak, countTtl_cons, countTtl_cons]
      simp only [hf]
      rw [ih]
    · rw [if_neg hak, countTtl_cons, countTtl_cons, ih]

theorem countTtl_mapDelete {l : Store V} {k : String} {e : EntryData V}
    (hnd : (l.map Prod.fst).Nodup) (hl : l.lookup k = some e) :
    countTtl l = countTtl (mapDelete k l) + (if ttlTruthy e.ttl then 1 else 0) := by
  induction l with
  | nil => simp at hl
  | cons p ps ih =>
    obtain ⟨a, b⟩ := p
    simp only [List.map_cons, List.nodup_cons] at hnd
    rw [lookup_cons] at hl
    by_cases hka : k = a
    · rw [if_pos hka] at hl
      injection hl with hl
      subst hl
      unfold mapDelete
      rw [if_pos hka.symm, countTtl_cons, Nat.add_comm]
    · rw [if_neg hka] at hl
      have hak : ¬a = k := fun hc => hka hc.symm
      unfold mapDelete
      rw [if_neg hak, countTtl_cons, countTtl_cons, ih hnd.2 hl,
        Nat.add_assoc]

theorem countTtl_detachData (e : EntryData V) (k : String) (d : Store V) :
    countTtl (detachData e k d) = countTtl d := by
  obtain ⟨vv, tt, ts, pv, nx⟩ := e
  unfold detachData
  cases nx <;> cases pv <;> dsimp only <;>
    (repeat rw [countTtl_mapUpdate]) <;> exact fun e => rfl

theorem countTtl_detachKey (c : Cache V) (k : String) :
    countTtl (c.detachKey k).data = countTtl c.data := by
  rw [data_detachKey]
  cases c.data.lookup k with
  | none => rfl
  | some e => exact countTtl_detachData e k c.data

theorem ttlCount_detachKey (c : Cache V) (k : String) :
    (c.detachKey k).ttlCount = c.ttlCount := by
  unfold Cache.detachKey
  cases c.data.lookup k <;> rfl

theorem ttlCount_doDelete (c : Cache V) (k : String) :
    (c.doDelete k).ttlCount = match c.data.lookup k with
      | none => c.ttlCount
      | some e => if ttlTruthy e.ttl then c.ttlCount - 1 else c.ttlCount := by
  unfold Cache.doDelete
  cases hl : c.data.lookup k with
  | none => rfl
  | some e =>
    simp only
    split_ifs with hm h1 h2 <;>
      simp_all [ttlCount_detachKey]

theorem entryTT_mapUpdate (f : EntryData V → EntryData V) (k j : String)
    (l : Store V)
    (hf : ∀ e, (f e).ttl = e.ttl ∧ (f e).timestamp = e.timestamp) :
    entryTT (mapUpdate k f l) j = entryTT l j := by
  unfold entryTT
  rw [lookup_mapUpdate]
  split_ifs with hjk
  · cases hl : l.lookup j with
    | none => rfl
    | some e => simp [(hf e).1, (hf e).2]
  · rfl

theorem entryTT_detachData (e : EntryData V) (k j : String) (d : Store V) :
    entryTT (detachData e k d) j = entryTT d j := by
  obtain ⟨vv, tt, ts, pv, nx⟩ := e
  unfold detachData
  cases nx <;> cases pv <;> dsimp only <;>
    (repeat rw [entryTT_mapUpdate]) <;> exact fun e => ⟨rfl, rfl⟩

theorem entryTT_detachKey (c : Cache V) (k j : String) :
    entryTT (c.detachKey k).data j = entryTT c.data j := by
  rw [data_detachKey]
  cases c.data.lookup k with
  | none => rfl
  | some e => exact entryTT_detachData e k j c.data

theorem entryTT_mapDelete_ne {j k : String} (h : j ≠ k)
    (l : Store V) : entryTT (mapDelete k l) j = entryTT l j := by
  unfold entryTT
  rw [lookup_mapDelete_ne h]

theorem entryTT_doDelete_ne {c : Cache V} {j k : String} (h : j ≠ k) :
    entryTT (c.doDelete k).data j = entryTT c.data j := by
  rw [data_doDelete]
  cases c.data.lookup k with
  | none => rfl
  | some e =>
    simp only
    split_ifs with hm
    · rw [entryTT_mapDelete_ne h, entryTT_detachKey]
    · rw [entryTT_mapDelete_ne h]

theorem TtlSync_doDelete {c : Cache V} (hs : TtlSync c) (k : String) :
    TtlSync (c.doDelete k) := by
  obtain ⟨hnd, hcnt⟩ := hs
  constructor
  · rw [map_fst_doDelete]
    exact hnd.erase k
  · rw [ttlCount_doDelete, data_doDelete]
    cases hl : c.data.lookup k with
    | none => exact hcnt
    | some e =>
      have key : ∀ d0 : Store V, (d0.map Prod.fst).Nodup →
          countTtl d0 = countTtl c.data → entryTT d0 k = entryTT c.data k →
          (if ttlTruthy e.ttl then c.ttlCount - 1 else c.ttlCount)
            = (countTtl (mapDelete k d0) : Int) := by
        intro d0 hnd0 hc0 htt0
        unfold entryTT at htt0
        rw [hl] at htt0
        cases hl0 : d0.lookup k with
        | none => rw [hl0] at htt0; simp at htt0
        | some e0 =>
          rw [hl0] at htt0
          simp only [Option.map_some', Option.some.injEq, Prod.mk.injEq] at htt0
          have h2 := countTtl_mapDelete hnd0 hl0
          rw [hc0] at h2
          rw [hcnt, htt0.1] at *
          rw [h2]
          split_ifs <;> push_cast <;> omega
      by_cases hm : c.options.maxTruthy = true
      · rw [if_pos hm]
        exact key _ (by rw [map_fst_detachKey]; exact hnd)
          (countTtl_detachKey c k) (entryTT_detachKey c k k)
      · rw [if_neg hm]
        exact key _ hnd rfl rfl

theorem hasExpired_congr {e e2 : EntryData V} (h1 : e2.ttl = e.ttl)
    (h2 : e2.timestamp = e.timestamp) (t : Int) :
    e2.hasExpired t = e.hasExpired t := by
  unfold EntryData.hasExpired
  rw [h1, h2]

theorem NoExpired_mapUpdate (f : EntryData V → EntryData V) (k : String)
    {d : Store V} {t : Int}
    (hf : ∀ e, (f e).ttl = e.ttl ∧ (f e).timestamp = e.timestamp)
    (h : NoExpired d t) : NoExpired (mapUpdate k f d) t := by
  intro p hp
  simp only [mapUpdate, List.mem_map] at hp
  obtain ⟨q, hq, hpq⟩ := hp
  by_cases hqk : q.1 = k
  · rw [if_pos hqk] at hpq
    subst hpq
    rw [hasExpired_congr (hf q.2).1 (hf q.2).2]
    exact h q hq
  · rw [if_neg hqk] at hpq
    subst hpq
    exact h q hq

theorem NoExpired_mapDelete (k : String) {d : Store V} {t : Int}
    (h : NoExpired d t) : NoExpired (mapDelete k d) t :=
  fun p hp => h p (mapDelete_subset p hp)

theorem NoExpired_detachKey {c : Cache V} {t : Int} (k : String)
    (h : NoExpired c.data t) : NoExpired (c.detachKey k).data t := by
  rw [data_detachKey]
  cases c.data.lookup k with
  | none => exact h
  | some e =>
    obtain ⟨vv, tt, ts, pv, nx⟩ := e
    unfold detachData
    cases nx <;> cases pv <;> dsimp only <;>
      first
        | exact NoExpired_mapUpdate _ _ (fun x => ⟨rfl, rfl⟩)
            (NoExpired_mapUpdate _ _ (fun x => ⟨rfl, rfl⟩)
              (NoExpired_mapUpdate _ _ (fun x => ⟨rfl, rfl⟩) h))
        | exact NoExpired_mapUpdate _ _ (fun x => ⟨rfl, rfl⟩)
            (NoExpired_mapUpdate _ _ (fun x => ⟨rfl, rfl⟩) h)
        | exact NoExpired_mapUpdate _ _ (fun x => ⟨rfl, rfl⟩) h

theorem NoExpired_doDelete {c : Cache V} {t : Int} (k : String)
    (h : NoExpired c.data t) : NoExpired (c.doDelete k).data t := by
  rw [data_doDelete]
  cases c.data.lookup k with
  | none => exact h
  | some e =>
    simp only
    split_ifs with hm
    · exact NoExpired_mapDelete k (NoExpired_detachKey k h)
    · exact NoExpired_mapDelete k h

theorem countTtl_zero_noExpired {d : Store V} (h : countTtl d = 0) (t : Int) :
    NoExpired d t := by
  intro p hp
  unfold countTtl at h
  rw [List.length_eq_zero] at h
  have hnt : ttlTruthy p.2.ttl = false := by
    cases htt : ttlTruthy p.2.ttl
    · rfl
    · have : p ∈ d.filter (fun p => ttlTruthy p.2.ttl) :=
        List.mem_filter.mpr ⟨hp, htt⟩
      rw [h] at this
      exact absurd this (List.not_mem_nil _)
  cases htl : p.2.ttl with
  | none => unfold EntryData.hasExpired; rw [htl]
  | some tv =>
    unfold ttlTruthy at hnt
    rw [htl] at hnt
    simp only [decide_eq_false_iff_not, ne_eq, not_not] at hnt
    unfold EntryData.hasExpired
    rw [htl]
    simp [hnt]

theorem vacuumTtlPass_clears (t : Int) :
    ∀ (ks : List String) (c : Cache V),
      TtlSync c →
      (∀ j e, c.data.lookup j = some e → e.hasExpired t = true → j ∈ ks) →
      NoExpired (vacuumTtlPass t ks c).data t ∧
        TtlSync (vacuumTtlPass t ks c) := by
  intro ks
  induction ks with
  | nil =>
    intro c hs hcov
    refine ⟨?_, hs⟩
    intro p hp
    cases hx : p.2.hasExpired t
    · rfl
    · exact absurd (hcov p.1 p.2 (lookup_of_mem_nodup hs.1 hp) hx)
        (List.not_mem_nil _)
  | cons k ks ih =>
    intro c hs hcov
    unfold vacuumTtlPass
    cases hl : c.data.lookup k with
    | none =>
      refine ih c hs ?_
      intro j e hje hexp
      rcases List.mem_cons.mp (hcov j e hje hexp) with h | h
      · subst h; rw [hje] at hl; cases hl
      · exact h
    | some e =>
      dsimp only
      by_cases hexp : e.hasExpired t = true
      · rw [if_pos hexp]
        have hs2 := TtlSync_doDelete hs k
        by_cases hz : (c.doDelete k).ttlCount ≤ 0
        · rw [if_pos hz]
          refine ⟨?_, hs2⟩
          have h0 : countTtl (c.doDelete k).data = 0 := by
            have := hs2.2
            omega
          exact countTtl_zero_noExpired h0 t
        · rw [if_neg hz]
          refine ih _ hs2 ?_
          intro j e2 hje hexp2
          have hjk : j ≠ k := by
            intro hc
            subst hc
            rw [lookup_doDelete_self hs.1] at hje
            cases hje
          have htt := entryTT_doDelete_ne hjk (c := c)
          unfold entryTT at htt
          rw [hje] at htt
          cases hje0 : c.data.lookup j with
          | none => rw [hje0] at htt; simp at htt
          | some e0 =>
            rw [hje0] at htt
            simp only [Option.map_some', Option.some.injEq, Prod.mk.injEq] at htt
            have hexp0 : e0.hasExpired t = true := by
              rw [← hasExpired_congr htt.1 htt.2]
              exact hexp2
            rcases List.mem_cons.mp (hcov j e0 hje0 hexp0) with h | h
            · exact absurd h hjk
            · exact h
      · rw [if_neg hexp]
        refine ih c hs ?_
        intro j e2 hje hexp2
        rcases List.mem_cons.mp (hcov j e2 hje hexp2) with h | h
        · subst h
          rw [hje] at hl
          injection hl with hl
          subst hl
          exact absurd hexp2 hexp
        · exact h

theorem TtlSync_trimPass (m : Nat) :
    ∀ (fuel : Nat) (c : Cache V), TtlSync c → TtlSync (trimPass m fuel c) := by
  intro fuel
  induction fuel with
  | zero => intro c h; exact h
  | succ n ih =>
    intro c h
    unfold trimPass
    split_ifs with hlen
    · cases c.tail with
      | none => exact h
      | some j => exact ih _ (TtlSync_doDelete h j)
    · exact h

theorem NoExpired_trimPass (m : Nat) {t : Int} :
    ∀ (fuel : Nat) (c : Cache V), NoExpired c.data t →
      NoExpired (trimPass m fuel c).data t := by
  intro fuel
  induction fuel with
  | zero => intro c h; exact h
  | succ n ih =>
    intro c h
    unfold trimPass
    split_ifs with hlen
    · cases c.tail with
      | none => exact h
      | some j => exact ih _ (NoExpired_doDelete j h)
    · exact h

theorem vacuum_clears (c : Cache V) (t : Int) (hs : TtlSync c) :
    NoExpired (c.vacuum t).data t ∧ TtlSync (c.vacuum t) := by
  unfold Cache.vacuum vacuumTrimStep vacuumTtlStep
  have hs0 : TtlSync ({ c with pendingVacuum := false, lastVacuumAt := t } : Cache V) := hs
  split_ifs with h1 h2 h3
  all_goals first
    | exact ⟨NoExpired_trimPass _ _ _
        (vacuumTtlPass_clears t _ _ hs0 (fun j e hje hexp =>
          (lookup_isSome_iff _ _).mp (by rw [hje]; rfl))).1,
      TtlSync_trimPass _ _ _
        (vacuumTtlPass_clears t _ _ hs0 (fun j e hje hexp =>
          (lookup_isSome_iff _ _).mp (by rw [hje]; rfl))).2⟩
    | exact (vacuumTtlPass_clears t _ _ hs0 (fun j e hje hexp =>
        (lookup_isSome_iff _ _).mp (by rw [hje]; rfl)))
    | exact ⟨NoExpired_trimPass _ _ _
        (countTtl_zero_noExpired (by have := hs0.2; omega) t),
      TtlSync_trimPass _ _ _ hs0⟩
    | exact ⟨countTtl_zero_noExpired (by have := hs0.2; omega) t, hs0⟩

/-- Claim C6: `keys()` first runs an immediate, non-deferred vacuum sweep,
and the returned sequence never contains a TTL-expired key (each returned key
is bound in the post-sweep store to an unexpired entry), regardless of
whether a previously deferred sweep has run yet (the pending flag is
unconstrained). -/
theorem claim_C6_keys_unexpired (c : Cache V) (t : Int) (hsync : TtlSync c) :
    ∀ k ∈ (c.keysOp t).1,
      (((c.keysOp t).2).data.lookup k).isSome = true ∧
        expiredAt ((c.keysOp t).2).data k t = false := by
  intro k hk
  obtain ⟨hne, hts⟩ := vacuum_clears c t hsync
  unfold Cache.keysOp at hk ⊢
  simp only at hk ⊢
  have hsm : ((c.vacuum t).data.lookup k).isSome := (lookup_isSome_iff _ _).mpr hk
  refine ⟨hsm, ?_⟩
  obtain ⟨e, he⟩ := Option.isSome_iff_exists.mp hsm
  unfold expiredAt
  rw [he]
  exact hne _ (mem_of_lookup he)

/-- Claim C6 witness: with ttl=100, after setting `a` (expires) and `b`
(null ttl), `keys()` at clock 201 yields `b` bound to an unexpired entry. -/
theorem claim_C6_witness :
    "b" ∈ (((((Cache.init ({ ttl := some 100 } : Options Nat) 0).set "a"
        (some 1) none 0).2).set "b" (some 2) (some none) 0).2.keysOp 201).1 ∧
    (((((((Cache.init ({ ttl := some 100 } : Options Nat) 0).set "a"
        (some 1) none 0).2).set "b" (some 2) (some none) 0).2.keysOp
        201).2).data.lookup "b").isSome = true ∧
    expiredAt (((((((Cache.init ({ ttl := some 100 } : Options Nat) 0).set "a"
        (some 1) none 0).2).set "b" (some 2) (some none) 0).2.keysOp
        201).2)).data "b" 201 = false := by
  refine ⟨by decide, ?_, ?_⟩
  · exact (claim_C6_keys_unexpired _ 201 ⟨by decide, by decide⟩ "b" (by decide)).1
  · exact (claim_C6_keys_unexpired _ 201 ⟨by decide, by decide⟩ "b" (by decide)).2

end AdequateCache

namespace AdequateCache

theorem linked_iff (c : Cache V) (j k : String) :
    linked c j k ↔
      nextAt c.data j = some (some k) ∧ prevAt c.data k = some (some j) := by
  unfold linked nextAt prevAt
  constructor
  · rintro ⟨⟨e1, h1, h2⟩, e2, h3, h4⟩
    rw [h1, h3]
    simp [h2, h4]
  · rintro ⟨h1, h2⟩
    cases hl1 : c.data.lookup j with
    | none => rw [hl1] at h1; cases h1
    | some e1 =>
      cases hl2 : c.data.lookup k with
      | none => rw [hl2] at h2; cases h2
      | some e2 =>
        rw [hl1] at h1
        rw [hl2] at h2
        simp only [Option.map_some', Option.some.injEq] at h1 h2
        exact ⟨⟨e1, rfl, h1⟩, e2, rfl, h2⟩

theorem chain'_frame_np {c c' : Cache V} :
    ∀ (l : List String),
      (∀ x ∈ l.dropLast, nextAt c'.data x = nextAt c.data x) →
      (∀ x ∈ l.tail, prevAt c'.data x = prevAt c.data x) →
      List.Chain' (linked c) l → List.Chain' (linked c') l := by
  intro l
  induction l with
  | nil => intro _ _ _; exact List.chain'_nil
  | cons x xs ih =>
    cases xs with
    | nil => intro _ _ _; exact List.chain'_singleton x
    | cons y rest =>
      intro hn hp hch
      rw [List.chain'_cons] at hch ⊢
      refine ⟨?_, ?_⟩
      · rw [linked_iff] at hch ⊢
        have hnx : nextAt c'.data x = nextAt c.data x := by
          refine hn x ?_
          rw [List.dropLast_cons₂]
          exact List.mem_cons_self _ _
        have hpy : prevAt c'.data y = prevAt c.data y :=
          hp y (List.mem_cons_self _ _)
        exact ⟨hnx.trans hch.1.1, hpy.trans hch.1.2⟩
      · refine ih ?_ ?_ hch.2
        · intro z hz
          refine hn z ?_
          rw [List.dropLast_cons₂]
          exact List.mem_cons_of_mem _ hz
        · intro z hz
          exact hp z (List.mem_cons_of_mem _ hz)

theorem chain_entry_links {c : Cache V} {ab l1 l2 : List String} {k : String}
    (h : listOk c ab) (hdec : ab = l1 ++ k :: l2) :
    ∃ e, c.data.lookup k = some e ∧ e.prev = l1.getLast? ∧
      e.next = l2.head? := by
  obtain ⟨hnd, hhead, htail, hch, hep, hen, hcov⟩ := h
  have hks : ((c.data.lookup k).isSome) := by
    rw [hcov]
    rw [hdec]
    exact List.mem_append.mpr (Or.inr (List.mem_cons_self _ _))
  obtain ⟨e, he⟩ := Option.isSome_iff_exists.mp hks
  refine ⟨e, he, ?_, ?_⟩
  · rcases List.eq_nil_or_concat l1 with h1 | ⟨l1p, p, h1⟩
    · subst h1
      simp only [List.nil_append] at hdec
      have := hep k (by rw [hdec]; rfl)
      obtain ⟨e2, he2, hp2⟩ := this
      rw [he] at he2
      injection he2 with he2
      subst he2
      simp [hp2]
    · subst h1
      rw [hdec] at hch
      rw [List.chain'_append] at hch
      have hcross := hch.2.2 p (by simp [List.concat_eq_append]) k
        (by exact rfl)
      rw [linked_iff] at hcross
      unfold prevAt at hcross
      rw [he] at hcross
      simp only [Option.map_some', Option.some.injEq] at hcross
      rw [hcross.2]
      simp [List.concat_eq_append]
  · rcases hl2 : l2 with _ | ⟨n, l2t⟩
    · subst hl2
      have hlast : ab.getLast? = some k := by
        rw [hdec]
        rw [List.getLast?_append_cons]
        rfl
      obtain ⟨e2, he2, hn2⟩ := hen k hlast
      rw [he] at he2
      injection he2 with he2
      subst he2
      simp [hn2]
    · subst hl2
      have hdec2 : ab = (l1 ++ [k]) ++ n :: l2t := by
        rw [hdec]
        simp
      rw [hdec2] at hch
      rw [List.chain'_append] at hch
      have hcross := hch.2.2 k (by simp) n (by exact rfl)
      rw [linked_iff] at hcross
      unfold nextAt at hcross
      rw [he] at hcross
      simp only [Option.map_some', Option.some.injEq] at hcross
      rw [hcross.1]
      rfl

theorem nextAt_mapUpdate_ne {j k : String} (h : j ≠ k)
    (f : EntryData V → EntryData V) (l : Store V) :
    nextAt (mapUpdate k f l) j = nextAt l j := by
  unfold nextAt
  rw [lookup_mapUpdate, if_neg h]

theorem prevAt_mapUpdate_ne {j k : String} (h : j ≠ k)
    (f : EntryData V → EntryData V) (l : Store V) :
    prevAt (mapUpdate k f l) j = prevAt l j := by
  unfold prevAt
  rw [lookup_mapUpdate, if_neg h]

theorem nextAt_mapUpdate_pres (f : EntryData V → EntryData V)
    (hf : ∀ e, (f e).next = e.next) (k j : String) (l : Store V) :
    nextAt (mapUpdate k f l) j = nextAt l j := by
  unfold nextAt
  rw [lookup_mapUpdate]
  split_ifs
  · cases l.lookup j <;> simp [hf]
  · rfl

theorem prevAt_mapUpdate_pres (f : EntryData V → EntryData V)
    (hf : ∀ e, (f e).prev = e.prev) (k j : String) (l : Store V) :
    prevAt (mapUpdate k f l) j = prevAt l j := by
  unfold prevAt
  rw [lookup_mapUpdate]
  split_ifs
  · cases l.lookup j <;> simp [hf]
  · rfl

theorem isSome_detachData (e : EntryData V) (k j : String) (d : Store V) :
    ((detachData e k d).lookup j).isSome = ((d.lookup j).isSome) := by
  rw [Bool.eq_iff_iff, lookup_isSome_iff, lookup_isSome_iff, map_fst_detachData]

theorem nextAt_detachData_other {e : EntryData V} {k j : String} (d : Store V)
    (hjk : j ≠ k) (hjp : e.prev ≠ some j) :
    nextAt (detachData e k d) j = nextAt d j := by
  unfold detachData
  cases hn : e.next with
  | none =>
    cases hp : e.prev with
    | none =>
      dsimp only
      rw [nextAt_mapUpdate_ne hjk]
    | some p =>
      have hjp2 : j ≠ p := fun hc => hjp (by rw [hp, hc])
      dsimp only
      rw [nextAt_mapUpdate_ne hjk, nextAt_mapUpdate_ne hjp2]
  | some n =>
    cases hp : e.prev with
    | none =>
      dsimp only
      rw [nextAt_mapUpdate_ne hjk, nextAt_mapUpdate_pres]
      exact fun x => rfl
    | some p =>
      have hjp2 : j ≠ p := fun hc => hjp (by rw [hp, hc])
      dsimp only
      rw [nextAt_mapUpdate_ne hjk, nextAt_mapUpdate_ne hjp2,
        nextAt_mapUpdate_pres]
      exact fun x => rfl

theorem prevAt_detachData_other {e : EntryData V} {k j : String} (d : Store V)
    (hjk : j ≠ k) (hjn : e.next ≠ some j) :
    prevAt (detachData e k d) j = prevAt d j := by
  unfold detachData
  cases hn : e.next with
  | none =>
    cases hp : e.prev with
    | none =>
      dsimp only
      rw [prevAt_mapUpdate_ne hjk]
    | some p =>
      dsimp only
      rw [prevAt_mapUpdate_ne hjk, prevAt_mapUpdate_pres]
      exact fun x => rfl
  | some n =>
    have hjn2 : j ≠ n := fun hc => hjn (by rw [hn, hc])
    cases hp : e.prev with
    | none =>
      dsimp only
      rw [prevAt_mapUpdate_ne hjk, prevAt_mapUpdate_ne hjn2]
    | some p =>
      dsimp only
      rw [prevAt_mapUpdate_ne hjk, prevAt_mapUpdate_pres,
        prevAt_mapUpdate_ne hjn2]
      exact fun x => rfl

theorem lookup_detachData_prevKey {e : EntryData V} {k p : String}
    (d : Store V) (hp : e.prev = some p) (hpk : p ≠ k)
    (hpn : e.next ≠ some p) :
    (detachData e k d).lookup p
      = (d.lookup p).map fun x => { x with next := e.next } := by
  unfold detachData
  rw [hp]
  cases hn : e.next with
  | none =>
    dsimp only
    rw [lookup_mapUpdate, if_neg hpk, lookup_mapUpdate, if_pos rfl]
  | some n =>
    have hpn2 : p ≠ n := fun hc => hpn (by rw [hn, hc])
    dsimp only
    rw [lookup_mapUpdate, if_neg hpk, lookup_mapUpdate, if_pos rfl,
      lookup_mapUpdate, if_neg hpn2]

theorem lookup_detachData_nextKey {e : EntryData V} {k n : String}
    (d : Store V) (hn : e.next = some n) (hnk : n ≠ k)
    (hnp : e.prev ≠ some n) :
    (detachData e k d).lookup n
      = (d.lookup n).map fun x => { x with prev := e.prev } := by
  unfold detachData
  rw [hn]
  cases hp : e.prev with
  | none =>
    dsimp only
    rw [lookup_mapUpdate, if_neg hnk, lookup_mapUpdate, if_pos rfl]
  | some p =>
    have hnp2 : n ≠ p := fun hc => hnp (by rw [hp, hc])
    dsimp only
    rw [lookup_mapUpdate, if_neg hnk, lookup_mapUpdate, if_neg hnp2,
      lookup_mapUpdate, if_pos rfl]

theorem endpoint_prev_iff (d : Store V) (j : String) :
    (∃ e, d.lookup j = some e ∧ e.prev = none) ↔ prevAt d j = some none := by
  unfold prevAt
  cases hl : d.lookup j with
  | none => simp
  | some e => simp

theorem endpoint_next_iff (d : Store V) (j : String) :
    (∃ e, d.lookup j = some e ∧ e.next = none) ↔ nextAt d j = some none := by
  unfold nextAt
  cases hl : d.lookup j with
  | none => simp
  | some e => simp

theorem getLast?_nodup_not_mem_dropLast {l : List String} (hnd : l.Nodup)
    {x : String} (hx : l.getLast? = some x) : x ∉ l.dropLast := by
  intro hmem
  have hdec := List.dropLast_append_getLast? x hx
  rw [← hdec] at hnd
  rw [List.nodup_append] at hnd
  exact hnd.2.2 hmem (List.mem_singleton_self x)

theorem head?_nodup_not_mem_tail {l : List String} (hnd : l.Nodup)
    {x : String} (hx : l.head? = some x) : x ∉ l.tail := by
  cases l with
  | nil => cases hx
  | cons a t =>
    injection hx with hx
    subst hx
    rw [List.nodup_cons] at hnd
    exact hnd.1

theorem mem_of_getLast?_eq {l : List String} {x : String}
    (h : l.getLast? = some x) : x ∈ l := by
  obtain ⟨hne, hx⟩ := List.mem_getLast?_eq_getLast (show x ∈ l.getLast? from h)
  rw [hx]
  exact List.getLast_mem hne

theorem detach_listOkExcept {c : Cache V} {ab : List String} {k : String}
    (h : listOk c ab) (hk : k ∈ ab) :
    listOkExcept (c.detachKey k) (ab.erase k) k := by
  obtain ⟨l1, l2, hdec⟩ := List.append_of_mem hk
  obtain ⟨e, he, hp, hn⟩ := chain_entry_links h hdec
  obtain ⟨hnd, hhead, htail, hch, hep, hen, hcov⟩ := h
  subst hdec
  rw [List.nodup_append] at hnd
  obtain ⟨hnd1, hnd2, hdisj⟩ := hnd
  rw [List.nodup_cons] at hnd2
  obtain ⟨hkl2, hnd2⟩ := hnd2
  have hkl1 : k ∉ l1 := fun hc => hdisj hc (List.mem_cons_self _ _)
  have hdisj12 : ∀ j ∈ l1, j ∉ l2 :=
    fun j hj hj2 => hdisj hj (List.mem_cons_of_mem _ hj2)
  have herase : (l1 ++ k :: l2).erase k = l1 ++ l2 := by
    rw [List.erase_append_right _ hkl1, List.erase_cons_head]
  rw [herase]
  have hc2 : c.detachKey k = { c with
      head := if c.head = some k then e.next else c.head,
      tail := if c.tail = some k then e.prev else c.tail,
      data := detachData e k c.data } := by
    unfold Cache.detachKey
    rw [he]
  rw [hc2]
  have hmemne : ∀ j, j ∈ l1 ∨ j ∈ l2 → j ≠ k := by
    rintro j (hj | hj) hc
    · subst hc; exact hkl1 hj
    · subst hc; exact hkl2 hj
  have hnext1 : ∀ j ∈ l1.dropLast,
      nextAt (detachData e k c.data) j = nextAt c.data j := by
    intro j hj
    have hjl1 : j ∈ l1 := List.dropLast_subset _ hj
    refine nextAt_detachData_other _ (hmemne j (Or.inl hjl1)) ?_
    rw [hp]
    intro hc
    exact getLast?_nodup_not_mem_dropLast hnd1 hc hj
  have hprev1 : ∀ j ∈ l1.tail,
      prevAt (detachData e k c.data) j = prevAt c.data j := by
    intro j hj
    have hjl1 : j ∈ l1 := List.tail_subset _ hj
    refine prevAt_detachData_other _ (hmemne j (Or.inl hjl1)) ?_
    rw [hn]
    intro hc
    have hjl2 : j ∈ l2 := by
      cases l2 with
      | nil => cases hc
      | cons n t =>
        injection hc with hc
        rw [← hc]
        exact List.mem_cons_self _ _
    exact hdisj12 j hjl1 hjl2
  have hnext2 : ∀ j ∈ l2.dropLast,
      nextAt (detachData e k c.data) j = nextAt c.data j := by
    intro j hj
    have hjl2 : j ∈ l2 := List.dropLast_subset _ hj
    refine nextAt_detachData_other _ (hmemne j (Or.inr hjl2)) ?_
    rw [hp]
    intro hc
    exact hdisj12 j (mem_of_getLast?_eq hc) hjl2
  have hprev2 : ∀ j ∈ l2.tail,
      prevAt (detachData e k c.data) j = prevAt c.data j := by
    intro j hj
    have hjl2 : j ∈ l2 := List.tail_subset _ hj
    refine prevAt_detachData_other _ (hmemne j (Or.inr hjl2)) ?_
    rw [hn]
    intro hc
    exact head?_nodup_not_mem_tail hnd2 hc hj
  rw [List.chain'_append] at hch
  obtain ⟨hch1, hchk2, hcross0⟩ := hch
  have hch2 : List.Chain' (linked c) l2 := hchk2.tail
  refine ⟨?_, ?_, ?_, ?_, ?_, ?_, ?_, ?_⟩
  · exact List.nodup_append.mpr
      ⟨hnd1, hnd2, fun a ha hb => hdisj ha (List.mem_cons_of_mem _ hb)⟩
  · intro hc
    rcases List.mem_append.mp hc with hc | hc
    · exact hkl1 hc
    · exact hkl2 hc
  · show (if c.head = some k then e.next else c.head) = (l1 ++ l2).head?
    cases l1 with
    | nil =>
      rw [if_pos (by rw [hhead]; simp), hn]
      simp
    | cons a l1t =>
      have hak : ¬(c.head = some k) := by
        rw [hhead]
        intro hc
        injection hc with hc
        exact hkl1 (hc ▸ List.mem_cons_self _ _)
      rw [if_neg hak, hhead]
      rfl
  · show (if c.tail = some k then e.prev else c.tail) = (l1 ++ l2).getLast?
    cases l2 with
    | nil =>
      have htk : c.tail = some k := by
        rw [htail, List.getLast?_append_cons]
        rfl
      rw [if_pos htk, hp, List.append_nil]
    | cons n l2t =>
      have htv : c.tail = (n :: l2t).getLast? := by
        rw [htail, List.getLast?_append_cons, List.getLast?_cons_cons]
      have hne2 : ¬(c.tail = some k) := by
        rw [htv]
        intro hc
        exact hkl2 (mem_of_getLast?_eq hc)
      rw [if_neg hne2, htv,
        List.getLast?_append_of_ne_nil _ (List.cons_ne_nil n l2t)]
  · show List.Chain'
      (linked { c with
        head := if c.head = some k then e.next else c.head,
        tail := if c.tail = some k then e.prev else c.tail,
        data := detachData e k c.data }) (l1 ++ l2)
    refine List.chain'_append.mpr ⟨?_, ?_, ?_⟩
    · exact chain'_frame_np l1 hnext1 hprev1 hch1
    · exact chain'_frame_np l2 hnext2 hprev2 hch2
    · intro x hx y hy
      have hpx : e.prev = some x := by
        rw [hp]
        exact Option.mem_def.mp hx
      have hny : e.next = some y := by
        rw [hn]
        cases l2 with
        | nil => cases hy
        | cons n t => exact Option.mem_def.mp hy
      have hxl1 : x ∈ l1 := mem_of_getLast?_eq (Option.mem_def.mp hx)
      have hyl2 : y ∈ l2 := by
        cases l2 with
        | nil => cases hy
        | cons n t =>
          have := Option.mem_def.mp hy
          injection this with this
          rw [← this]
          exact List.mem_cons_self _ _
      have hxk : x ≠ k := hmemne x (Or.inl hxl1)
      have hyk : y ≠ k := hmemne y (Or.inr hyl2)
      have hxy : x ≠ y := fun hc => hdisj12 x hxl1 (hc ▸ hyl2)
      have hxs : (c.data.lookup x).isSome := by
        rw [hcov]
        exact List.mem_append.mpr (Or.inl hxl1)
      have hys : (c.data.lookup y).isSome := by
        rw [hcov]
        exact List.mem_append.mpr (Or.inr (List.mem_cons_of_mem _ hyl2))
      obtain ⟨ex, hex⟩ := Option.isSome_iff_exists.mp hxs
      obtain ⟨ey, hey⟩ := Option.isSome_iff_exists.mp hys
      have hlx : (detachData e k c.data).lookup x
          = some { ex with next := e.next } := by
        rw [lookup_detachData_prevKey _ hpx hxk
          (by rw [hny]; intro hc; injection hc with hc; exact hxy hc.symm), hex]
        rfl
      have hly : (detachData e k c.data).lookup y
          = some { ey with prev := e.prev } := by
        rw [lookup_detachData_nextKey _ hny hyk
          (by rw [hpx]; intro hc; injection hc with hc; exact hxy hc), hey]
        rfl
      exact ⟨⟨{ ex with next := e.next }, hlx, by rw [hny]⟩,
        ⟨{ ey with prev := e.prev }, hly, by rw [hpx]⟩⟩
  · intro j hj
    show ∃ e2, (detachData e k c.data).lookup j = some e2 ∧ e2.prev = none
    cases l1 with
    | nil =>
      rw [List.nil_append] at hj
      have hnj : e.next = some j := by rw [hn, hj]
      have hjl2 : j ∈ l2 := by
        cases l2 with
        | nil => cases hj
        | cons n t =>
          injection hj with hj
          rw [← hj]
          exact List.mem_cons_self _ _
      have hjk : j ≠ k := hmemne j (Or.inr hjl2)
      have hpnone : e.prev = none := by rw [hp]; rfl
      have hjs : (c.data.lookup j).isSome := by
        rw [hcov]
        exact List.mem_append.mpr (Or.inr (List.mem_cons_of_mem _ hjl2))
      obtain ⟨ej, hej⟩ := Option.isSome_iff_exists.mp hjs
      refine ⟨{ ej with prev := e.prev }, ?_, by rw [hpnone]⟩
      rw [lookup_detachData_nextKey _ hnj hjk
        (by rw [hpnone]; intro hc; cases hc), hej]
      rfl
    | cons a l1t =>
      rw [List.cons_append] at hj
      injection hj with hj
      subst hj
      obtain ⟨ea, hea, hpa⟩ := hep a rfl
      rw [endpoint_prev_iff]
      have hfr : prevAt (detachData e k c.data) a = prevAt c.data a := by
        refine prevAt_detachData_other _
          (hmemne a (Or.inl (List.mem_cons_self _ _))) ?_
        rw [hn]
        intro hc
        have hal2 : a ∈ l2 := by
          cases l2 with
          | nil => cases hc
          | cons n t =>
            injection hc with hc
            rw [← hc]
            exact List.mem_cons_self _ _
        exact hdisj12 a (List.mem_cons_self _ _) hal2
      rw [hfr]
      exact (endpoint_prev_iff _ _).mp ⟨ea, hea, hpa⟩
  · intro j hj
    show ∃ e2, (detachData e k c.data).lookup j = some e2 ∧ e2.next = none
    cases hl2e : l2 with
    | nil =>
      subst hl2e
      rw [List.append_nil] at hj
      have hpj : e.prev = some j := by rw [hp, hj]
      have hjl1 : j ∈ l1 := mem_of_getLast?_eq hj
      have hjk : j ≠ k := hmemne j (Or.inl hjl1)
      have hnnone : e.next = none := by rw [hn]; rfl
      have hjs : (c.data.lookup j).isSome := by
        rw [hcov]
        exact List.mem_append.mpr (Or.inl hjl1)
      obtain ⟨ej, hej⟩ := Option.isSome_iff_exists.mp hjs
      refine ⟨{ ej with next := e.next }, ?_, by rw [hnnone]⟩
      rw [lookup_detachData_prevKey _ hpj hjk
        (by rw [hnnone]; intro hc; cases hc), hej]
      rfl
    | cons n l2t =>
      subst hl2e
      rw [List.getLast?_append_of_ne_nil _ (List.cons_ne_nil n l2t)] at hj
      obtain ⟨ea, hea, hna⟩ := hen j
        (by rw [htail] at *; rw [List.getLast?_append_cons]; exact hj)
      rw [endpoint_next_iff]
      have hjl2 : j ∈ n :: l2t := mem_of_getLast?_eq hj
      have hfr : nextAt (detachData e k c.data) j = nextAt c.data j := by
        refine nextAt_detachData_other _ (hmemne j (Or.inr hjl2)) ?_
        rw [hp]
        intro hc
        exact hdisj12 j (mem_of_getLast?_eq hc) hjl2
      rw [hfr]
      exact (endpoint_next_iff _ _).mp ⟨ea, hea, hna⟩
  · intro j
    show ((detachData e k c.data).lookup j).isSome = true ↔ _
    rw [isSome_detachData, hcov]
    constructor
    · intro hj
      rcases List.mem_append.mp hj with hj | hj
      · exact Or.inl (List.mem_append.mpr (Or.inl hj))
      · rcases List.mem_cons.mp hj with hj | hj
        · exact Or.inr hj
        · exact Or.inl (List.mem_append.mpr (Or.inr hj))
    · rintro (hj | hj)
      · rcases List.mem_append.mp hj with hj | hj
        · exact List.mem_append.mpr (Or.inl hj)
        · exact List.mem_append.mpr (Or.inr (List.mem_cons_of_mem _ hj))
      · subst hj
        exact List.mem_append.mpr (Or.inr (List.mem_cons_self _ _))

theorem nextAt_attachData_ne {h : Option String} {k j : String} (hjk : j ≠ k)
    (d : Store V) : nextAt (attachData h k d) j = nextAt d j := by
  unfold attachData
  cases h with
  | none =>
    dsimp only
    rw [nextAt_mapUpdate_pres, nextAt_mapUpdate_ne hjk]
    exact fun x => rfl
  | some hk =>
    dsimp only
    rw [nextAt_mapUpdate_pres, nextAt_mapUpdate_pres, nextAt_mapUpdate_ne hjk]
    · exact fun x => rfl
    · exact fun x => rfl

theorem prevAt_attachData_other {h : Option String} {k j : String}
    (hjk : j ≠ k) (hjh : h ≠ some j) (d : Store V) :
    prevAt (attachData h k d) j = prevAt d j := by
  unfold attachData
  cases h with
  | none =>
    dsimp only
    rw [prevAt_mapUpdate_ne hjk, prevAt_mapUpdate_pres]
    exact fun x => rfl
  | some hk =>
    have hhj : j ≠ hk := fun hc => hjh (by rw [hc])
    dsimp only
    rw [prevAt_mapUpdate_ne hjk, prevAt_mapUpdate_ne hhj,
      prevAt_mapUpdate_pres]
    exact fun x => rfl

theorem lookup_attachData_self (h : Option String) (k : String) (d : Store V)
    (hhk : ∀ x, h = some x → x ≠ k) :
    (attachData h k d).lookup k
      = (d.lookup k).map fun x => { x with next := h, prev := none } := by
  unfold attachData
  cases h with
  | none =>
    dsimp only
    rw [lookup_mapUpdate, if_pos rfl, lookup_mapUpdate, if_pos rfl]
    cases d.lookup k <;> rfl
  | some hk =>
    have hne : ¬(k = hk) := fun hc => hhk hk rfl hc.symm
    dsimp only
    rw [lookup_mapUpdate, if_pos rfl, lookup_mapUpdate, if_neg hne,
      lookup_mapUpdate, if_pos rfl]
    cases d.lookup k <;> rfl

theorem lookup_attachData_headKey {hk k : String} (d : Store V)
    (hne : hk ≠ k) :
    (attachData (some hk) k d).lookup hk
      = (d.lookup hk).map fun x => { x with prev := some k } := by
  unfold attachData
  dsimp only
  rw [lookup_mapUpdate, if_neg hne, lookup_mapUpdate, if_pos rfl,
    lookup_mapUpdate, if_neg hne]

theorem isSome_attachData (h : Option String) (k j : String) (d : Store V) :
    ((attachData h k d).lookup j).isSome = (d.lookup j).isSome := by
  rw [Bool.eq_iff_iff, lookup_isSome_iff, lookup_isSome_iff, map_fst_attachData]

theorem attach_listOk {c : Cache V} {ab : List String} {k : String}
    (h : listOkExcept c ab k) : listOk (c.attachHeadKey k) (k :: ab) := by
  obtain ⟨hnd, hknab, hhead, htail, hch, hep, hen, hcov⟩ := h
  have hheadne : ∀ x, c.head = some x → x ≠ k := by
    intro x hx hc
    subst hc
    rw [hhead] at hx
    cases hab : ab with
    | nil => rw [hab] at hx; cases hx
    | cons b abt =>
      rw [hab] at hx
      injection hx with hx
      exact hknab (hab ▸ (hx ▸ List.mem_cons_self _ _))
  unfold Cache.attachHeadKey
  refine ⟨List.nodup_cons.mpr ⟨hknab, hnd⟩, rfl, ?_, ?_, ?_, ?_, ?_⟩
  · show (if c.tail = none then some k else c.tail) = (k :: ab).getLast?
    cases hab : ab with
    | nil =>
      rw [if_pos (by rw [htail, hab]; rfl)]
      rfl
    | cons b abt =>
      have htne : ¬(c.tail = none) := by
        rw [htail, hab]
        cases hgl : (b :: abt).getLast? with
        | none =>
          rw [List.getLast?_eq_none_iff] at hgl
          cases hgl
        | some x => simp
      rw [if_neg htne, htail, hab, List.getLast?_cons_cons]
  · show List.Chain' (linked _) (k :: ab)
    rw [List.chain'_cons']
    constructor
    · intro y hy
      have hcy : c.head = some y := by
        rw [hhead]
        exact Option.mem_def.mp hy
      have hyk : y ≠ k := hheadne y hcy
      have hys : (c.data.lookup y).isSome := by
        rw [hcov]
        left
        cases hab : ab with
        | nil => rw [hab] at hy; cases hy
        | cons b abt =>
          rw [hab] at hy
          have := Option.mem_def.mp hy
          injection this with this
          rw [← this]
          exact List.mem_cons_self _ _
      obtain ⟨ey, hey⟩ := Option.isSome_iff_exists.mp hys
      have hks : (c.data.lookup k).isSome := by
        rw [hcov]
        right
        rfl
      obtain ⟨ek, hek⟩ := Option.isSome_iff_exists.mp hks
      constructor
      · refine ⟨{ ek with next := c.head, prev := none }, ?_, by rw [hcy]⟩
        show (attachData c.head k c.data).lookup k = _
        rw [lookup_attachData_self _ _ _ hheadne, hek]
        rfl
      · refine ⟨{ ey with prev := some k }, ?_, rfl⟩
        show (attachData c.head k c.data).lookup y = _
        rw [hcy, lookup_attachData_headKey _ hyk, hey]
        rfl
    · refine chain'_frame_np ab ?_ ?_ hch
      · intro j hj
        have hjab : j ∈ ab := List.dropLast_subset _ hj
        exact nextAt_attachData_ne (fun hc => hknab (by rw [hc] at hjab; exact hjab)) _
      · intro j hj
        have hjab : j ∈ ab := List.tail_subset _ hj
        refine prevAt_attachData_other (fun hc => hknab (by rw [hc] at hjab; exact hjab)) ?_ _
        rw [hhead]
        intro hc
        cases hab : ab with
        | nil => rw [hab] at hc; cases hc
        | cons b abt =>
          rw [hab] at hc
          injection hc with hc
          rw [hab] at hj
          subst hc
          rw [hab, List.nodup_cons] at hnd
          exact hnd.1 hj
  · intro j hj
    injection hj with hj
    subst hj
    have hks : (c.data.lookup k).isSome := by
      rw [hcov]
      right
      rfl
    obtain ⟨ek, hek⟩ := Option.isSome_iff_exists.mp hks
    refine ⟨{ ek with next := c.head, prev := none }, ?_, rfl⟩
    show (attachData c.head k c.data).lookup k = _
    rw [lookup_attachData_self _ _ _ hheadne, hek]
    rfl
  · intro j hj
    cases hab : ab with
    | nil =>
      rw [hab] at hj
      injection hj with hj
      subst hj
      have hks : (c.data.lookup k).isSome := by
        rw [hcov]
        right
        rfl
      obtain ⟨ek, hek⟩ := Option.isSome_iff_exists.mp hks
      refine ⟨{ ek with next := c.head, prev := none }, ?_, ?_⟩
      · show (attachData c.head k c.data).lookup k = _
        rw [lookup_attachData_self _ _ _ hheadne, hek]
        rfl
      · show c.head = none
        rw [hhead, hab]
        rfl
    | cons b abt =>
      rw [hab, List.getLast?_cons_cons] at hj
      have hjab : j ∈ ab := by
        rw [hab]
        exact mem_of_getLast?_eq hj
      obtain ⟨ej, hej, hnj⟩ := hen j (by rw [hab, ← List.getLast?_cons_cons (a := b)]; exact hj)
      rw [endpoint_next_iff]
      show nextAt (attachData c.head k c.data) j = some none
      rw [nextAt_attachData_ne (fun hc => hknab (by rw [hc] at hjab; exact hjab)) _]
      exact (endpoint_next_iff _ _).mp ⟨ej, hej, hnj⟩
  · intro j
    show ((attachData c.head k c.data).lookup j).isSome = true ↔ _
    rw [isSome_attachData, hcov]
    constructor
    · rintro (hj | hj)
      · exact List.mem_cons_of_mem _ hj
      · subst hj; exact List.mem_cons_self _ _
    · intro hj
      rcases List.mem_cons.mp hj with hj | hj
      · exact Or.inr hj
      · exact Or.inl hj

theorem mem_of_head?_eq {l : List String} {x : String}
    (h : l.head? = some x) : x ∈ l := by
  cases l with
  | nil => cases h
  | cons a t =>
    injection h with h
    rw [← h]
    exact List.mem_cons_self _ _

theorem nextAt_mapDelete_ne {j k : String} (h : j ≠ k) (l : Store V) :
    nextAt (mapDelete k l) j = nextAt l j := by
  unfold nextAt
  rw [lookup_mapDelete_ne h]

theorem prevAt_mapDelete_ne {j k : String} (h : j ≠ k) (l : Store V) :
    prevAt (mapDelete k l) j = prevAt l j := by
  unfold prevAt
  rw [lookup_mapDelete_ne h]

theorem mapDelete_listOk {c : Cache V} {ab : List String} {k : String} {n : Int}
    (hnd0 : (c.data.map Prod.fst).Nodup) (h : listOkExcept c ab k) :
    listOk { c with data := mapDelete k c.data, ttlCount := n } ab := by
  obtain ⟨hnd, hknab, hhead, htail, hch, hep, hen, hcov⟩ := h
  have hne : ∀ j ∈ ab, j ≠ k := fun j hj hc => hknab (hc ▸ hj)
  refine ⟨hnd, hhead, htail, ?_, ?_, ?_, ?_⟩
  · refine chain'_frame_np ab ?_ ?_ hch
    · intro x hx
      exact nextAt_mapDelete_ne (hne x (List.dropLast_subset _ hx)) _
    · intro x hx
      exact prevAt_mapDelete_ne (hne x (List.tail_subset _ hx)) _
  · intro j hj
    obtain ⟨e, he, hpe⟩ := hep j hj
    refine ⟨e, ?_, hpe⟩
    show (mapDelete k c.data).lookup j = some e
    rw [lookup_mapDelete_ne (hne j (mem_of_head?_eq hj)), he]
  · intro j hj
    obtain ⟨e, he, hpe⟩ := hen j hj
    refine ⟨e, ?_, hpe⟩
    show (mapDelete k c.data).lookup j = some e
    rw [lookup_mapDelete_ne (hne j (mem_of_getLast?_eq hj)), he]
  · intro j
    show ((mapDelete k c.data).lookup j).isSome = true ↔ j ∈ ab
    by_cases hjk : j = k
    · subst hjk
      rw [lookup_mapDelete_self hnd0]
      simp only [Option.isSome_none, Bool.false_eq_true, false_iff]
      exact hknab
    · rw [lookup_mapDelete_ne hjk, hcov]
      constructor
      · rintro (hj | hj)
        · exact hj
        · exact absurd hj hjk
      · exact Or.inl

theorem doDelete_eq_of_some {c : Cache V} {k : String} {e : EntryData V}
    (hl : c.data.lookup k = some e) (hmax : c.options.maxTruthy = true) :
    c.doDelete k = { c.detachKey k with
      data := mapDelete k (c.detachKey k).data,
      ttlCount := if ttlTruthy e.ttl then (c.detachKey k).ttlCount - 1
        else (c.detachKey k).ttlCount } := by
  unfold Cache.doDelete
  rw [hl, hmax]
  rfl

theorem doDelete_Inv {c : Cache V} {ab : List String} (k : String)
    (hmax : c.options.maxTruthy = true) (hInv : Inv c ab) :
    Inv (c.doDelete k) (ab.erase k) := by
  obtain ⟨hts, hlo⟩ := hInv
  refine ⟨TtlSync_doDelete hts k, ?_⟩
  cases hl : c.data.lookup k with
  | none =>
    have hknab : k ∉ ab := by
      intro hk
      have hs := (hlo.2.2.2.2.2.2 k).mpr hk
      rw [hl] at hs
      simp at hs
    rw [List.erase_of_not_mem hknab]
    show listOk (c.doDelete k) ab
    unfold Cache.doDelete
    rw [hl]
    exact hlo
  | some e =>
    have hk : k ∈ ab := (hlo.2.2.2.2.2.2 k).mp (by rw [hl]; rfl)
    rw [doDelete_eq_of_some hl hmax]
    refine mapDelete_listOk ?_ (detach_listOkExcept hlo hk)
    rw [map_fst_detachKey]
    exact hts.1

theorem del_Inv {c : Cache V} {ab : List String} (k : String)
    (hmax : c.options.maxTruthy = true) (hInv : Inv c ab) :
    Inv (c.del k).2 (ab.erase k) := by
  unfold Cache.del
  cases hl : c.data.lookup k with
  | none =>
    have hknab : k ∉ ab := by
      intro hk
      have hs := (hInv.2.2.2.2.2.2.2 k).mpr hk
      rw [hl] at hs
      simp at hs
    rw [List.erase_of_not_mem hknab]
    exact hInv
  | some e => exact doDelete_Inv k hmax hInv

theorem countTtl_attachData (h : Option String) (k : String) (d : Store V) :
    countTtl (attachData h k d) = countTtl d := by
  unfold attachData
  cases h with
  | none =>
    dsimp only
    rw [countTtl_mapUpdate, countTtl_mapUpdate]
    · exact fun x => rfl
    · exact fun x => rfl
  | some hk =>
    dsimp only
    rw [countTtl_mapUpdate, countTtl_mapUpdate, countTtl_mapUpdate]
    · exact fun x => rfl
    · exact fun x => rfl
    · exact fun x => rfl

theorem touch_Inv {c : Cache V} {ab : List String} {k : String}
    (hInv : Inv c ab) (hk : k ∈ ab) :
    Inv ((c.detachKey k).attachHeadKey k) (k :: ab.erase k) := by
  obtain ⟨hts, hlo⟩ := hInv
  refine ⟨⟨?_, ?_⟩, attach_listOk (detach_listOkExcept hlo hk)⟩
  · show ((attachData (c.detachKey k).head k (c.detachKey k).data).map Prod.fst).Nodup
    rw [map_fst_attachData, map_fst_detachKey]
    exact hts.1
  · show (c.detachKey k).ttlCount = (countTtl (attachData (c.detachKey k).head k (c.detachKey k).data) : Int)
    rw [ttlCount_detachKey, countTtl_attachData, countTtl_detachKey]
    exact hts.2

theorem getLast?_cons_ite (k : String) (ab : List String) (t : Option String)
    (ht : t = ab.getLast?) :
    (if t = none then some k else t) = (k :: ab).getLast? := by
  subst ht
  cases ab with
  | nil => rfl
  | cons b bt =>
    have hne : ¬((b :: bt).getLast? = none) := by
      rw [List.getLast?_eq_none_iff]
      simp
    rw [if_neg hne, List.getLast?_cons_cons]

theorem insertNew_eq_of_max {c : Cache V} (k : String) (e : EntryData V)
    (hmax : c.options.maxTruthy = true) :
    c.insertNew k e = { c.attachHeadNewC k with
      data := mapSet k { e with next := c.head, prev := none }
        (c.attachHeadNewC k).data,
      ttlCount := if ttlTruthy e.ttl then c.ttlCount + 1 else c.ttlCount } := by
  unfold Cache.insertNew
  rw [hmax]
  rfl

theorem insertNew_eq_of_nonmax {c : Cache V} (k : String) (e : EntryData V)
    (hmax : c.options.maxTruthy = false) :
    c.insertNew k e = { c with
      data := mapSet k e c.data,
      ttlCount := if ttlTruthy e.ttl then c.ttlCount + 1 else c.ttlCount } := by
  unfold Cache.insertNew
  rw [hmax]
  rfl

theorem nextAt_mapSet_ne {j k : String} (h : j ≠ k) (v : EntryData V)
    (l : Store V) : nextAt (mapSet k v l) j = nextAt l j := by
  unfold nextAt
  rw [lookup_mapSet_ne h]

theorem prevAt_mapSet_ne {j k : String} (h : j ≠ k) (v : EntryData V)
    (l : Store V) : prevAt (mapSet k v l) j = prevAt l j := by
  unfold prevAt
  rw [lookup_mapSet_ne h]

theorem nextAt_attachHeadNewC (c : Cache V) (k j : String) :
    nextAt (c.attachHeadNewC k).data j = nextAt c.data j := by
  unfold Cache.attachHeadNewC
  cases c.head with
  | none => rfl
  | some hk =>
    dsimp only
    rw [nextAt_mapUpdate_pres]
    exact fun x => rfl

theorem prevAt_attachHeadNewC {c : Cache V} {k j : String}
    (hjh : c.head ≠ some j) :
    prevAt (c.attachHeadNewC k).data j = prevAt c.data j := by
  unfold Cache.attachHeadNewC
  cases hh : c.head with
  | none => rfl
  | some hk =>
    have hne : j ≠ hk := fun hc => hjh (by rw [hh, hc])
    dsimp only
    exact prevAt_mapUpdate_ne hne _ _

theorem lookup_attachHeadNewC_head {c : Cache V} {k hk : String}
    (hh : c.head = some hk) :
    (c.attachHeadNewC k).data.lookup hk
      = (c.data.lookup hk).map fun x => { x with prev := some k } := by
  unfold Cache.attachHeadNewC
  rw [hh]
  dsimp only
  rw [lookup_mapUpdate, if_pos rfl]

theorem map_fst_attachHeadNewC (c : Cache V) (k : String) :
    (c.attachHeadNewC k).data.map Prod.fst = c.data.map Prod.fst := by
  unfold Cache.attachHeadNewC
  cases c.head with
  | none => rfl
  | some hk =>
    dsimp only
    exact map_fst_mapUpdate _ _ _

theorem isSome_attachHeadNewC (c : Cache V) (k j : String) :
    ((c.attachHeadNewC k).data.lookup j).isSome = (c.data.lookup j).isSome := by
  rw [Bool.eq_iff_iff, lookup_isSome_iff, lookup_isSome_iff,
    map_fst_attachHeadNewC]

theorem lookup_none_attachHeadNewC {c : Cache V} {j : String}
    (h : c.data.lookup j = none) (k : String) :
    (c.attachHeadNewC k).data.lookup j = none := by
  rw [lookup_eq_none_iff, map_fst_attachHeadNewC, ← lookup_eq_none_iff]
  exact h

theorem countTtl_attachHeadNewC (c : Cache V) (k : String) :
    countTtl (c.attachHeadNewC k).data = countTtl c.data := by
  unfold Cache.attachHeadNewC
  cases c.head with
  | none => rfl
  | some hk =>
    dsimp only
    rw [countTtl_mapUpdate]
    exact fun x => rfl

theorem countTtl_append (l1 l2 : Store V) :
    countTtl (l1 ++ l2) = countTtl l1 + countTtl l2 := by
  unfold countTtl
  rw [List.filter_append, List.length_append]

theorem mapSet_of_none {l : Store V} {k : String} (h : l.lookup k = none)
    (v : EntryData V) : mapSet k v l = l ++ [(k, v)] := by
  unfold mapSet
  rw [h]
  rfl

theorem TtlSync_insertNew {c : Cache V} {k : String} {e : EntryData V}
    (hts : TtlSync c) (hnone : c.data.lookup k = none) :
    TtlSync (c.insertNew k e) := by
  have hkf : k ∉ c.data.map Prod.fst := (lookup_eq_none_iff _ _).mp hnone
  cases hmax : c.options.maxTruthy with
  | true =>
    have hnone1 : (c.attachHeadNewC k).data.lookup k = none :=
      lookup_none_attachHeadNewC hnone k
    rw [insertNew_eq_of_max k e hmax]
    constructor
    · show ((mapSet k _ (c.attachHeadNewC k).data).map Prod.fst).Nodup
      rw [map_fst_mapSet_append hnone1, map_fst_attachHeadNewC,
        List.nodup_append]
      refine ⟨hts.1, List.nodup_singleton _, ?_⟩
      intro a ha hb
      rw [List.mem_singleton] at hb
      subst hb
      exact hkf ha
    · show (if ttlTruthy e.ttl then c.ttlCount + 1 else c.ttlCount)
        = (countTtl (mapSet k { e with next := c.head, prev := none }
            (c.attachHeadNewC k).data) : Int)
      rw [mapSet_of_none hnone1, countTtl_append, countTtl_attachHeadNewC]
      cases htt : ttlTruthy e.ttl with
      | true =>
        have h1 : countTtl [(k, ({ e with next := c.head, prev := none } : EntryData V))] = 1 := by
          unfold countTtl
          rw [List.filter_cons,
            show ttlTruthy ((k, ({ e with next := c.head, prev := none } : EntryData V))).2.ttl = true from htt]
          rfl
        rw [h1, if_pos rfl, hts.2]
        push_cast
        ring
      | false =>
        have h1 : countTtl [(k, ({ e with next := c.head, prev := none } : EntryData V))] = 0 := by
          unfold countTtl
          rw [List.filter_cons,
            show ttlTruthy ((k, ({ e with next := c.head, prev := none } : EntryData V))).2.ttl = false from htt]
          rfl
        rw [h1, if_neg (by simp), hts.2]
        push_cast
        ring
  | false =>
    rw [insertNew_eq_of_nonmax k e hmax]
    constructor
    · show ((mapSet k e c.data).map Prod.fst).Nodup
      rw [map_fst_mapSet_append hnone, List.nodup_append]
      refine ⟨hts.1, List.nodup_singleton _, ?_⟩
      intro a ha hb
      rw [List.mem_singleton] at hb
      subst hb
      exact hkf ha
    · show (if ttlTruthy e.ttl then c.ttlCount + 1 else c.ttlCount)
        = (countTtl (mapSet k e c.data) : Int)
      rw [mapSet_of_none hnone, countTtl_append]
      cases htt : ttlTruthy e.ttl with
      | true =>
        have h1 : countTtl [(k, e)] = 1 := by
          unfold countTtl
          rw [List.filter_cons, show ttlTruthy ((k, e)).2.ttl = true from htt]
          rfl
        rw [h1, if_pos rfl, hts.2]
        push_cast
        ring
      | false =>
        have h1 : countTtl [(k, e)] = 0 := by
          unfold countTtl
          rw [List.filter_cons, show ttlTruthy ((k, e)).2.ttl = false from htt]
          rfl
        rw [h1, if_neg (by simp), hts.2]
        push_cast
        ring

theorem insertNew_listOk {c : Cache V} {ab : List String} {k : String}
    {e : EntryData V} (hmax : c.options.maxTruthy = true)
    (h : listOk c ab) (hnone : c.data.lookup k = none) :
    listOk (c.insertNew k e) (k :: ab) := by
  obtain ⟨hnd, hhead, htail, hch, hep, hen, hcov⟩ := h
  have hknab : k ∉ ab := by
    intro hk
    have hs := (hcov k).mpr hk
    rw [hnone] at hs
    simp at hs
  rw [insertNew_eq_of_max k e hmax]
  refine ⟨List.nodup_cons.mpr ⟨hknab, hnd⟩, rfl, ?_, ?_, ?_, ?_, ?_⟩
  · show (if c.tail = none then some k else c.tail) = (k :: ab).getLast?
    exact getLast?_cons_ite k ab c.tail htail
  · show List.Chain' _ (k :: ab)
    rw [List.chain'_cons']
    constructor
    · intro y hy
      have hhy : c.head = some y := by
        rw [hhead]
        exact Option.mem_def.mp hy
      have hyab : y ∈ ab := mem_of_head?_eq (by rw [← hhead]; exact hhy)
      have hyk : y ≠ k := fun hc => hknab (by rw [hc] at hyab; exact hyab)
      have hys := (hcov y).mpr hyab
      obtain ⟨ey, hey⟩ := Option.isSome_iff_exists.mp hys
      constructor
      · exact ⟨_, lookup_mapSet_self k _ _, hhy⟩
      · refine ⟨{ ey with prev := some k }, ?_, rfl⟩
        show (mapSet k _ (c.attachHeadNewC k).data).lookup y = _
        rw [lookup_mapSet_ne hyk, lookup_attachHeadNewC_head hhy, hey]
        rfl
    · refine chain'_frame_np ab ?_ ?_ hch
      · intro x hx
        have hxk : x ≠ k := fun hc => hknab (by
          rw [hc] at hx
          exact List.dropLast_subset _ hx)
        show nextAt (mapSet k _ (c.attachHeadNewC k).data) x = _
        rw [nextAt_mapSet_ne hxk, nextAt_attachHeadNewC]
      · intro x hx
        have hxab : x ∈ ab := List.tail_subset _ hx
        have hxk : x ≠ k := fun hc => hknab (by rw [hc] at hxab; exact hxab)
        have hhx : c.head ≠ some x := by
          rw [hhead]
          intro hc
          exact head?_nodup_not_mem_tail hnd hc hx
        show prevAt (mapSet k _ (c.attachHeadNewC k).data) x = _
        rw [prevAt_mapSet_ne hxk, prevAt_attachHeadNewC hhx]
  · intro j hj
    injection hj with hj
    subst hj
    exact ⟨_, lookup_mapSet_self k _ _, rfl⟩
  · intro j hj
    cases hab : ab with
    | nil =>
      rw [hab] at hj
      injection hj with hj
      subst hj
      refine ⟨_, lookup_mapSet_self k _ _, ?_⟩
      show c.head = none
      rw [hhead, hab]
      rfl
    | cons b bt =>
      rw [hab, List.getLast?_cons_cons] at hj
      have hjab : j ∈ ab := by
        rw [hab]
        exact mem_of_getLast?_eq hj
      have hjk : j ≠ k := fun hc => hknab (by rw [hc] at hjab; exact hjab)
      rw [endpoint_next_iff]
      show nextAt (mapSet k _ (c.attachHeadNewC k).data) j = some none
      rw [nextAt_mapSet_ne hjk, nextAt_attachHeadNewC]
      refine (endpoint_next_iff _ _).mp (hen j ?_)
      rw [hab]
      exact hj
  · intro j
    show ((mapSet k _ (c.attachHeadNewC k).data).lookup j).isSome = true ↔ _
    by_cases hjk : j = k
    · subst hjk
      rw [lookup_mapSet_self]
      simp only [Option.isSome_some, true_iff]
      exact List.mem_cons_self _ _
    · rw [lookup_mapSet_ne hjk, isSome_attachHeadNewC, hcov]
      constructor
      · exact fun hj => List.mem_cons_of_mem _ hj
      · intro hj
        rcases List.mem_cons.mp hj with hj | hj
        · exact absurd hj hjk
        · exact hj

theorem insertNew_Inv {c : Cache V} {ab : List String} {k : String}
    {e : EntryData V} (hmax : c.options.maxTruthy = true)
    (hInv : Inv c ab) (hnone : c.data.lookup k = none) :
    Inv (c.insertNew k e) (k :: ab) :=
  ⟨TtlSync_insertNew hInv.1 hnone, insertNew_listOk hmax hInv.2 hnone⟩

theorem setMid_Inv {c : Cache V} {ab : List String} (k : String) (v : V)
    (ttlArg : Option (Option Int)) (now : Int)
    (hmax : c.options.maxTruthy = true) (hInv : Inv c ab) :
    Inv (c.setMid k v ttlArg now) (k :: ab.erase k) := by
  unfold Cache.setMid
  cases hl : c.data.lookup k with
  | none =>
    have hknab : k ∉ ab := by
      intro hk
      have hs := (hInv.2.2.2.2.2.2.2 k).mpr hk
      rw [hl] at hs
      simp at hs
    rw [List.erase_of_not_mem hknab]
    show Inv (c.insertNew k _) (k :: ab)
    exact insertNew_Inv hmax hInv hl
  | some e =>
    show Inv ((c.doDelete k).insertNew k _) (k :: ab.erase k)
    refine insertNew_Inv ?_ (doDelete_Inv k hmax hInv) ?_
    · rw [options_doDelete]
      exact hmax
    · exact lookup_doDelete_self hInv.1.1

theorem length_data_eq {c : Cache V} {ab : List String}
    (h : listOk c ab) (hnd : (c.data.map Prod.fst).Nodup) :
    c.data.length = ab.length := by
  have hperm : (c.data.map Prod.fst).Perm ab := by
    rw [List.perm_ext_iff_of_nodup hnd h.1]
    intro a
    rw [← lookup_isSome_iff]
    exact h.2.2.2.2.2.2 a
  rw [← List.length_map c.data Prod.fst]
  exact hperm.length_eq

theorem erase_getLast_eq_dropLast {l : List String} (hnd : l.Nodup)
    {x : String} (hx : l.getLast? = some x) : l.erase x = l.dropLast := by
  have hdec := List.dropLast_append_getLast? x hx
  have hnm : x ∉ l.dropLast := getLast?_nodup_not_mem_dropLast hnd hx
  conv_lhs => rw [← hdec]
  rw [List.erase_append_right _ hnm, List.erase_cons_head, List.append_nil]

theorem take_dropLast_of_lt {l : List String} {m : Nat} (h : m < l.length) :
    l.dropLast.take m = l.take m := by
  rw [List.dropLast_eq_take, List.take_take]
  congr 1
  omega

theorem length_data_doDelete {c : Cache V} {k : String}
    (hk : k ∈ c.data.map Prod.fst) :
    (c.doDelete k).data.length = c.data.length - 1 := by
  have h1 := congrArg List.length (map_fst_doDelete c k)
  rw [List.length_map, List.length_erase_of_mem hk, List.length_map] at h1
  exact h1

theorem trimPass_Inv (m : Nat) :
    ∀ (fuel : Nat) (c : Cache V) (ab : List String),
      Inv c ab → c.options.maxTruthy = true → c.data.length ≤ fuel →
      Inv (trimPass m fuel c) (ab.take m) := by
  intro fuel
  induction fuel with
  | zero =>
    intro c ab hInv hmax hlen
    have hlab : c.data.length = ab.length := length_data_eq hInv.2 hInv.1.1
    have hab0 : ab.length = 0 := by omega
    rw [List.length_eq_zero] at hab0
    subst hab0
    rw [List.take_nil]
    exact hInv
  | succ n ih =>
    intro c ab hInv hmax hlen
    have hlab : c.data.length = ab.length := length_data_eq hInv.2 hInv.1.1
    unfold trimPass
    split_ifs with hgt
    · have habne : ab ≠ [] := by
        intro h0
        rw [h0] at hlab
        simp only [List.length_nil] at hlab
        omega
      have hxs : ab.getLast?.isSome := by
        rw [List.getLast?_isSome]
        exact habne
      obtain ⟨x, hx⟩ := Option.isSome_iff_exists.mp hxs
      have htl : c.tail = some x := by
        rw [hInv.2.2.2.1, hx]
      rw [htl]
      show Inv (trimPass m n (c.doDelete x)) (ab.take m)
      have hInv2 : Inv (c.doDelete x) (ab.erase x) := doDelete_Inv x hmax hInv
      rw [erase_getLast_eq_dropLast hInv.2.1 hx] at hInv2
      have hxmem : x ∈ c.data.map Prod.fst := by
        rw [← lookup_isSome_iff]
        exact (hInv.2.2.2.2.2.2.2 x).mpr (mem_of_getLast?_eq hx)
      have hlen2 : (c.doDelete x).data.length ≤ n := by
        rw [length_data_doDelete hxmem]
        omega
      have hres := ih (c.doDelete x) ab.dropLast hInv2
        (by rw [options_doDelete]; exact hmax) hlen2
      have hmlt : m < ab.length := by omega
      rw [take_dropLast_of_lt hmlt] at hres
      exact hres
    · rw [List.take_of_length_le (by omega)]
      exact hInv

theorem nonExpiredIn_eq (c : Cache V) (t : Int) (k : String) :
    nonExpiredIn c t k = !expiredAt c.data k t := by
  unfold nonExpiredIn expiredAt
  cases c.data.lookup k <;> rfl

theorem filter_erase_of_neg {p : String → Bool} {ab : List String} {k : String}
    (hnd : ab.Nodup) (hp : p k = false) :
    ab.filter p = (ab.erase k).filter p := by
  induction ab with
  | nil => rfl
  | cons a tl ih =>
    rw [List.nodup_cons] at hnd
    by_cases hak : a = k
    · subst hak
      rw [List.erase_cons_head, List.filter_cons, hp]
      rfl
    · have he : (a :: tl).erase k = a :: tl.erase k :=
        List.erase_cons_tail (by simp [hak])
      rw [he, List.filter_cons, List.filter_cons, ih hnd.2]

theorem filter_eq_self_of_all {p : String → Bool} {ab : List String}
    (h : ∀ j ∈ ab, p j = true) : ab.filter p = ab :=
  List.filter_eq_self.mpr h

theorem expiredAt_congr {d1 d2 : Store V} {j : String}
    (h : entryTT d1 j = entryTT d2 j) (t : Int) :
    expiredAt d1 j t = expiredAt d2 j t := by
  unfold entryTT at h
  unfold expiredAt
  cases h1 : d1.lookup j with
  | none =>
    rw [h1] at h
    cases h2 : d2.lookup j with
    | none => rfl
    | some e2 =>
      rw [h2] at h
      simp at h
  | some e1 =>
    rw [h1] at h
    cases h2 : d2.lookup j with
    | none =>
      rw [h2] at h
      simp at h
    | some e2 =>
      rw [h2] at h
      injection h with h
      have ht := congrArg Prod.fst h
      have hts := congrArg Prod.snd h
      exact hasExpired_congr ht hts t

theorem not_expired_of_countTtl_zero {c : Cache V} (hc0 : countTtl c.data = 0)
    (t : Int) (j : String) : (!expiredAt c.data j t) = true := by
  have hne := countTtl_zero_noExpired hc0 t
  unfold expiredAt
  cases hlj : c.data.lookup j with
  | none => rfl
  | some ej =>
    show (!ej.hasExpired t) = true
    rw [show ej.hasExpired t = false from hne _ (mem_of_lookup hlj)]
    rfl

theorem vacuumTtlPass_Inv (t : Int) :
    ∀ (ks : List String) (c : Cache V) (ab : List String),
      Inv c ab → c.options.maxTruthy = true →
      (∀ j ∈ ab, j ∉ ks → expiredAt c.data j t = false) →
      Inv (vacuumTtlPass t ks c)
        (ab.filter fun j => !expiredAt c.data j t) := by
  intro ks
  induction ks with
  | nil =>
    intro c ab hInv hmax hout
    show Inv c (ab.filter _)
    rw [filter_eq_self_of_all ?_]
    · exact hInv
    · intro j hj
      rw [hout j hj (List.not_mem_nil j)]
      rfl
  | cons k ks ih =>
    intro c ab hInv hmax hout
    unfold vacuumTtlPass
    cases hl : c.data.lookup k with
    | none =>
      refine ih c ab hInv hmax ?_
      intro j hj hjks
      by_cases hjk : j = k
      · subst hjk
        unfold expiredAt
        rw [hl]
      · refine hout j hj ?_
        intro hm
        rcases List.mem_cons.mp hm with hm | hm
        · exact hjk hm
        · exact hjks hm
    | some e =>
      dsimp only
      by_cases hexp : e.hasExpired t = true
      · rw [if_pos hexp]
        have hkab : k ∈ ab := (hInv.2.2.2.2.2.2.2 k).mp (by rw [hl]; rfl)
        have hInv2 : Inv (c.doDelete k) (ab.erase k) := doDelete_Inv k hmax hInv
        have hpk : (fun j => !expiredAt c.data j t) k = false := by
          show (!expiredAt c.data k t) = false
          unfold expiredAt
          rw [hl]
          show (!e.hasExpired t) = false
          rw [hexp]
          rfl
        have hcongr : ∀ j ∈ ab.erase k,
            (!expiredAt c.data j t) = (!expiredAt (c.doDelete k).data j t) := by
          intro j hj
          have hjk : j ≠ k := ((hInv.2.1).mem_erase_iff.mp hj).1
          rw [expiredAt_congr (entryTT_doDelete_ne hjk).symm t]
        have hfilt : (ab.filter fun j => !expiredAt c.data j t)
            = ((ab.erase k).filter fun j => !expiredAt (c.doDelete k).data j t) := by
          rw [filter_erase_of_neg hInv.2.1 hpk]
          exact List.filter_congr hcongr
        rw [hfilt]
        show Inv (if (c.doDelete k).ttlCount ≤ 0 then c.doDelete k
          else vacuumTtlPass t ks (c.doDelete k)) _
        split_ifs with hcnt
        · rw [filter_eq_self_of_all ?_]
          · exact hInv2
          · intro j hj
            have hc0 : countTtl (c.doDelete k).data = 0 := by
              have h2 := hInv2.1.2
              omega
            exact not_expired_of_countTtl_zero hc0 t j
        · refine ih (c.doDelete k) (ab.erase k) hInv2
            (by rw [options_doDelete]; exact hmax) ?_
          intro j hj hjks
          have hjk : j ≠ k := ((hInv.2.1).mem_erase_iff.mp hj).1
          have hjab : j ∈ ab := ((hInv.2.1).mem_erase_iff.mp hj).2
          rw [expiredAt_congr (entryTT_doDelete_ne hjk) t]
          refine hout j hjab ?_
          intro hm
          rcases List.mem_cons.mp hm with hm | hm
          · exact hjk hm
          · exact hjks hm
      · rw [if_neg hexp]
        refine ih c ab hInv hmax ?_
        intro j hj hjks
        by_cases hjk : j = k
        · subst hjk
          unfold expiredAt
          rw [hl]
          show e.hasExpired t = false
          cases hb : e.hasExpired t with
          | false => rfl
          | true => exact absurd hb hexp
        · refine hout j hj ?_
          intro hm
          rcases List.mem_cons.mp hm with hm | hm
          · exact hjk hm
          · exact hjks hm

theorem vacuumTtlStep_Inv {c : Cache V} {ab : List String} (t : Int)
    (hInv : Inv c ab) (hmax : c.options.maxTruthy = true) :
    Inv (vacuumTtlStep c t) (ab.filter (nonExpiredIn c t)) := by
  have hfc : ab.filter (nonExpiredIn c t)
      = ab.filter fun j => !expiredAt c.data j t :=
    List.filter_congr fun j hj => nonExpiredIn_eq c t j
  rw [hfc]
  unfold vacuumTtlStep
  split_ifs with hpos
  · refine vacuumTtlPass_Inv t _ c ab hInv hmax ?_
    intro j hj hjks
    exact absurd ((lookup_isSome_iff _ _).mp
      ((hInv.2.2.2.2.2.2.2 j).mpr hj)) hjks
  · rw [filter_eq_self_of_all ?_]
    · exact hInv
    · intro j hj
      have hc0 : countTtl c.data = 0 := by
        have h2 := hInv.1.2
        omega
      exact not_expired_of_countTtl_zero hc0 t j

theorem options_vacuumTtlStep (c : Cache V) (t : Int) :
    (vacuumTtlStep c t).options = c.options := by
  unfold vacuumTtlStep
  split_ifs
  · exact options_vacuumTtlPass t _ c
  · rfl

theorem vacuum_Inv {c : Cache V} {ab : List String} (t : Int)
    (hInv : Inv c ab) (hmax : c.options.maxTruthy = true) :
    Inv (c.vacuum t) (abVacuum c t ab) := by
  have hInv0 : Inv ({ c with pendingVacuum := false, lastVacuumAt := t } : Cache V) ab := hInv
  have h1 := vacuumTtlStep_Inv t hInv0 hmax
  have hfc : ab.filter
      (nonExpiredIn ({ c with pendingVacuum := false, lastVacuumAt := t } : Cache V) t)
      = ab.filter (nonExpiredIn c t) :=
    List.filter_congr fun j hj => rfl
  rw [hfc] at h1
  unfold Cache.vacuum vacuumTrimStep
  have hopts := options_vacuumTtlStep
    ({ c with pendingVacuum := false, lastVacuumAt := t } : Cache V) t
  set c1 := vacuumTtlStep
    ({ c with pendingVacuum := false, lastVacuumAt := t } : Cache V) t with hc1
  split_ifs with hm2
  · unfold abVacuum
    have h2 := trimPass_Inv c1.options.maxVal c1.data.length c1
      (ab.filter (nonExpiredIn c t)) h1 (by rw [hopts]; exact hmax) (le_refl _)
    rw [show Options.maxVal c.options = Options.maxVal c1.options
      from by rw [hopts]]
    exact h2
  · exact absurd (by rw [hopts]; exact hmax) hm2

theorem tryVacuum_Inv {c : Cache V} {ab : List String} (t : Int)
    (hInv : Inv c ab) (hmax : c.options.maxTruthy = true) :
    Inv (c.tryVacuum t) (abTryVacuum c t ab) := by
  unfold Cache.tryVacuum abTryVacuum
  split_ifs
  · exact hInv
  · exact hInv
  · exact hInv
  · exact vacuum_Inv t hInv hmax
  · exact hInv

theorem options_del (c : Cache V) (k : String) :
    ((c.del k).2).options = c.options := by
  unfold Cache.del
  cases c.data.lookup k with
  | none => rfl
  | some e => exact options_doDelete c k

theorem foldl_del_Inv :
    ∀ (ks : List String) (c : Cache V) (ab : List String),
      Inv c ab → c.options.maxTruthy = true →
      Inv (ks.foldl (fun c k => (c.del k).2) c)
        (ks.foldl (fun l k => l.erase k) ab) := by
  intro ks
  induction ks with
  | nil => intro c ab hInv hmax; exact hInv
  | cons k ks ih =>
    intro c ab hInv hmax
    rw [List.foldl_cons, List.foldl_cons]
    refine ih _ _ (del_Inv k hmax hInv) ?_
    rw [options_del]
    exact hmax

theorem foldl_erase_nil :
    ∀ (ks : List String) (ab : List String), ab.Nodup →
      (∀ j ∈ ab, j ∈ ks) →
      ks.foldl (fun l k => l.erase k) ab = [] := by
  intro ks
  induction ks with
  | nil =>
    intro ab hnd hsub
    rw [List.foldl_nil]
    rw [List.eq_nil_iff_forall_not_mem]
    intro a ha
    exact absurd (hsub a ha) (List.not_mem_nil a)
  | cons k ks ih =>
    intro ab hnd hsub
    rw [List.foldl_cons]
    refine ih _ (hnd.erase k) ?_
    intro j hj
    have hjk : j ≠ k := (hnd.mem_erase_iff.mp hj).1
    have hjab : j ∈ ab := (hnd.mem_erase_iff.mp hj).2
    rcases List.mem_cons.mp (hsub j hjab) with hm | hm
    · exact absurd hm hjk
    · exact hm

theorem emptyOut_Inv {c : Cache V} {ab : List String}
    (hInv : Inv c ab) (hmax : c.options.maxTruthy = true) :
    Inv c.emptyOut [] := by
  unfold Cache.emptyOut
  have h1 := foldl_del_Inv (c.data.map Prod.fst) c ab hInv hmax
  rw [foldl_erase_nil _ _ hInv.2.1 ?_] at h1
  · exact h1
  · intro j hj
    rw [← lookup_isSome_iff]
    exact (hInv.2.2.2.2.2.2.2 j).mpr hj

theorem Inv_init (opts : Options V) (now : Int) :
    Inv (Cache.init opts now) [] := by
  refine ⟨⟨List.nodup_nil, rfl⟩,
    List.nodup_nil, rfl, rfl, List.chain'_nil, ?_, ?_, ?_⟩
  · intro j hj
    cases hj
  · intro j hj
    cases hj
  · intro j
    show ((List.lookup j ([] : Store V)).isSome) = true ↔ j ∈ ([] : List String)
    simp [List.lookup]

/-- Claim C7: when a capacity bound (`max`) is configured, after every public
operation the recency list walked from head to tail is exactly the store's
key set, ordered from most-recently-touched (head) to least (tail): the
invariant `Inv` (doubly-linked chain `ab` with null end pointers, `head`/
`tail` at its ends, store coverage, plus the finite-ttl bookkeeping) is
preserved by every operation, with the touched key moving to the front of
`ab` and sweeps erasing expired/overflow keys from it. -/
theorem claim_C7_recency_invariant {c : Cache V} {ab : List String} (op : Op V)
    (hmax : c.options.maxTruthy = true) (hInv : Inv c ab) :
    Inv (applyOp c op) (abOp c ab op) := by
  cases op with
  | get k t =>
    show Inv (c.get k t).2 _
    unfold Cache.get abOp
    dsimp only
    cases hl : c.data.lookup k with
    | none => exact tryVacuum_Inv t hInv hmax
    | some e =>
      dsimp only
      by_cases hexp : e.hasExpired t = true
      · rw [if_pos hexp, if_pos hexp]
        refine tryVacuum_Inv t (doDelete_Inv k hmax hInv) ?_
        rw [options_doDelete]
        exact hmax
      · rw [if_neg hexp, if_neg hexp, if_pos hmax, if_pos hmax]
        have hkab : k ∈ ab := (hInv.2.2.2.2.2.2.2 k).mp (by rw [hl]; rfl)
        refine tryVacuum_Inv t (touch_Inv hInv hkab) ?_
        show (c.detachKey k).options.maxTruthy = true
        rw [options_detachKey]
        exact hmax
  | set k v ttlArg t =>
    show Inv (c.set k v ttlArg t).2 _
    unfold Cache.set abOp
    dsimp only
    cases v with
    | none =>
      dsimp only
      exact del_Inv k hmax hInv
    | some w =>
      dsimp only
      refine tryVacuum_Inv t (setMid_Inv k w ttlArg t hmax hInv) ?_
      rw [options_setMid]
      exact hmax
  | del k => exact del_Inv k hmax hInv
  | keys t => exact vacuum_Inv t hInv hmax
  | emptyOut => exact emptyOut_Inv hInv hmax
  | vacuumNow t => exact vacuum_Inv t hInv hmax

theorem claim_C7_witness :
    ({ defaultOpts Nat with max := some 2 } : Options Nat).maxTruthy = true ∧
      Inv
        (applyOp (Cache.init { defaultOpts Nat with max := some 2 } 0)
          (Op.set "a" (some 1) none 0))
        (abOp (Cache.init { defaultOpts Nat with max := some 2 } 0) []
          (Op.set "a" (some 1) none 0)) :=
  ⟨by decide, claim_C7_recency_invariant _ (by decide) (Inv_init _ 0)⟩

theorem tryVacuum_bg_eq {c : Cache V}
    (hbg : c.options.vacuumInBackground = true) (t : Int) :
    c.tryVacuum t = c ∨ c.tryVacuum t = { c with pendingVacuum := true } := by
  unfold Cache.tryVacuum
  split_ifs <;>
    first
      | exact Or.inl rfl
      | exact Or.inr rfl
      | exact absurd hbg (by assumption)

theorem tryVacuum_bg_props {c : Cache V} {ab : List String}
    (hbg : c.options.vacuumInBackground = true) (t : Int) (hInv : Inv c ab) :
    Inv (c.tryVacuum t) ab ∧ (c.tryVacuum t).options = c.options ∧
      (c.tryVacuum t).ttlCount = c.ttlCount ∧ (c.tryVacuum t).data = c.data := by
  rcases tryVacuum_bg_eq hbg t with hq | hq <;> rw [hq]
  · exact ⟨hInv, rfl, rfl, rfl⟩
  · exact ⟨hInv, rfl, rfl, rfl⟩

theorem ttlCount_insertNew (c : Cache V) (k : String) (e : EntryData V) :
    (c.insertNew k e).ttlCount
      = if ttlTruthy e.ttl then c.ttlCount + 1 else c.ttlCount := by
  unfold Cache.insertNew
  split_ifs <;> rfl

theorem ttlCount_setMid_none {c : Cache V} {k : String}
    (httl : c.options.ttl = none) (v : V) (t : Int)
    (hl : c.data.lookup k = none) :
    (c.setMid k v none t).ttlCount = c.ttlCount := by
  unfold Cache.setMid
  rw [hl]
  show (c.insertNew k _).ttlCount = c.ttlCount
  rw [ttlCount_insertNew]
  have h1 : ttlTruthy (resolveTtl c.options none) = false := by
    rw [show resolveTtl c.options none = none from httl]
    rfl
  dsimp only
  rw [h1]
  rfl

theorem lookup_none_insertNew {c : Cache V} {j k : String}
    (hj : c.data.lookup j = none) (hjk : j ≠ k) (e : EntryData V) :
    (c.insertNew k e).data.lookup j = none := by
  cases hm : c.options.maxTruthy with
  | true =>
    rw [insertNew_eq_of_max k e hm]
    show (mapSet k _ (c.attachHeadNewC k).data).lookup j = none
    rw [lookup_mapSet_ne hjk]
    exact lookup_none_attachHeadNewC hj k
  | false =>
    rw [insertNew_eq_of_nonmax k e hm]
    show (mapSet k e c.data).lookup j = none
    rw [lookup_mapSet_ne hjk]
    exact hj

theorem lookup_none_setMid {c : Cache V} {j k : String}
    (hj : c.data.lookup j = none) (hjk : j ≠ k) (v : V)
    (ta : Option (Option Int)) (t : Int) :
    (c.setMid k v ta t).data.lookup j = none := by
  unfold Cache.setMid
  split_ifs with hs
  · exact lookup_none_insertNew (lookup_none_doDelete hj k) hjk _
  · exact lookup_none_insertNew hj hjk _

theorem insert_fold_spec (v : Nat) (t : Int) :
    ∀ (ks : List String) (c : Cache Nat) (ab : List String),
      Inv c ab → c.options.maxTruthy = true →
      c.options.vacuumInBackground = true → c.options.ttl = none →
      (∀ k ∈ ks, c.data.lookup k = none) → ks.Nodup →
      Inv (ks.foldl (fun c k => (c.set k (some v) none t).2) c)
          (ks.reverse ++ ab) ∧
        (ks.foldl (fun c k => (c.set k (some v) none t).2) c).options
          = c.options ∧
        (ks.foldl (fun c k => (c.set k (some v) none t).2) c).ttlCount
          = c.ttlCount := by
  intro ks
  induction ks with
  | nil =>
    intro c ab hInv hmax hbg httl habs hnd
    refine ⟨?_, rfl, rfl⟩
    show Inv c ([] ++ ab)
    rw [List.nil_append]
    exact hInv
  | cons k ks ih =>
    intro c ab hInv hmax hbg httl habs hnd
    rw [List.foldl_cons]
    have hkn : c.data.lookup k = none := habs k (List.mem_cons_self _ _)
    have hknab : k ∉ ab := by
      intro hk
      have hs := (hInv.2.2.2.2.2.2.2 k).mpr hk
      rw [hkn] at hs
      simp at hs
    have hSM : Inv (c.setMid k v none t) (k :: ab) := by
      have h0 := setMid_Inv k v none t hmax hInv
      rw [List.erase_of_not_mem hknab] at h0
      exact h0
    have hset : (c.set k (some v) none t).2
        = (c.setMid k v none t).tryVacuum t := rfl
    rw [hset]
    have hbg1 : (c.setMid k v none t).options.vacuumInBackground = true := by
      rw [options_setMid]
      exact hbg
    obtain ⟨hInv1, hopt1, hcnt1, hdata1⟩ := tryVacuum_bg_props hbg1 t hSM
    have hres := ih ((c.setMid k v none t).tryVacuum t) (k :: ab) hInv1
      (by rw [hopt1, options_setMid]; exact hmax)
      (by rw [hopt1, options_setMid]; exact hbg)
      (by rw [hopt1, options_setMid]; exact httl)
      (by
        intro j hj
        rw [hdata1]
        have hjk : j ≠ k := by
          intro hc
          rw [List.nodup_cons] at hnd
          rw [hc] at hj
          exact hnd.1 hj
        exact lookup_none_setMid (habs j (List.mem_cons_of_mem _ hj)) hjk v none t)
      (List.Nodup.of_cons hnd)
    refine ⟨?_, ?_, ?_⟩
    · rw [List.reverse_cons, List.append_assoc]
      exact hres.1
    · rw [hres.2.1, hopt1]
      exact options_setMid c k v none t
    · rw [hres.2.2, hcnt1]
      exact ttlCount_setMid_none httl v t hkn

theorem take_reverse_mem {ks : List String} {N : Nat}
    (hlen : ks.length = N + 1) (j : String) :
    j ∈ ks.reverse.take N ↔ j ∈ ks.drop 1 := by
  cases ks with
  | nil => simp at hlen
  | cons k0 tl =>
    have hteq : tl.reverse.length = N := by
      rw [List.length_reverse]
      rw [List.length_cons] at hlen
      omega
    rw [List.reverse_cons, List.take_left' hteq, List.mem_reverse]
    exact Iff.rfl

/-- Claim C2: with `max = N`, inserting `N + 1` distinct keys (no intervening
reads; background vacuuming keeps the sweeps deferred) leaves all `N + 1`
keys stored; forcing a sweep then evicts exactly one entry, namely the
first-inserted (least-recently-touched) key: afterwards the stored key set is
exactly the last `N` keys in insertion order, and the first key's entry is
gone. -/
theorem claim_C2_lru_eviction (N : Nat) (hN : N ≠ 0) (ks : List String)
    (hlen : ks.length = N + 1) (hnd : ks.Nodup) :
    (∀ j, (((ks.foldl (fun c k => (c.set k (some 0) none 0).2)
          (Cache.init { defaultOpts Nat with max := some N } 0)).data.lookup j).isSome)
          = true ↔ j ∈ ks) ∧
      (∀ j, ((((ks.foldl (fun c k => (c.set k (some 0) none 0).2)
          (Cache.init { defaultOpts Nat with max := some N } 0)).vacuum 0).data.lookup j).isSome)
          = true ↔ j ∈ ks.drop 1) ∧
      (∀ k0, ks.head? = some k0 →
        (((ks.foldl (fun c k => (c.set k (some 0) none 0).2)
          (Cache.init { defaultOpts Nat with max := some N } 0)).vacuum 0).data.lookup k0)
          = none) := by
  have hmax0 : ({ defaultOpts Nat with max := some N } : Options Nat).maxTruthy = true := by
    unfold Options.maxTruthy
    dsimp only
    exact decide_eq_true hN
  obtain ⟨hInvM, hoptsM, httlM⟩ := insert_fold_spec 0 0 ks
    (Cache.init { defaultOpts Nat with max := some N } 0) []
    (Inv_init _ 0) hmax0 rfl rfl (fun k hk => rfl) hnd
  rw [List.append_nil] at hInvM
  have hcnt0 : countTtl (ks.foldl (fun c k => (c.set k (some 0) none 0).2)
      (Cache.init { defaultOpts Nat with max := some N } 0)).data = 0 := by
    have h2 := hInvM.1.2
    rw [httlM] at h2
    have h3 : (Cache.init { defaultOpts Nat with max := some N } (0 : Int)).ttlCount = 0 := rfl
    rw [h3] at h2
    omega
  have hmaxM : (ks.foldl (fun c k => (c.set k (some 0) none 0).2)
      (Cache.init { defaultOpts Nat with max := some N } 0)).options.maxTruthy = true := by
    rw [hoptsM]
    exact hmax0
  have hvac := vacuum_Inv 0 hInvM hmaxM
  unfold abVacuum at hvac
  rw [show List.filter (nonExpiredIn (ks.foldl (fun c k => (c.set k (some 0) none 0).2)
      (Cache.init { defaultOpts Nat with max := some N } 0)) 0) ks.reverse = ks.reverse from by
    refine filter_eq_self_of_all ?_
    intro j hj
    rw [nonExpiredIn_eq]
    exact not_expired_of_countTtl_zero hcnt0 0 j] at hvac
  rw [show (ks.foldl (fun c k => (c.set k (some 0) none 0).2)
      (Cache.init { defaultOpts Nat with max := some N } 0)).options.maxVal = N from by
    rw [hoptsM]
    rfl] at hvac
  refine ⟨?_, ?_, ?_⟩
  · intro j
    exact (hInvM.2.2.2.2.2.2.2 j).trans (List.mem_reverse)
  · intro j
    exact (hvac.2.2.2.2.2.2.2 j).trans (take_reverse_mem hlen j)
  · intro k0 hk0
    have hmem : k0 ∉ ks.drop 1 := by
      cases ks with
      | nil => cases hk0
      | cons a tl =>
        injection hk0 with h0
        rw [List.nodup_cons] at hnd
        show k0 ∉ tl
        rw [← h0]
        exact hnd.1
    rw [← Option.not_isSome_iff_eq_none]
    intro hs
    exact hmem (((hvac.2.2.2.2.2.2.2 k0).trans (take_reverse_mem hlen k0)).mp hs)

theorem claim_C2_witness :
    (∀ j, ((((["a", "b", "c"] : List String).foldl
          (fun c k => (c.set k (some 0) none 0).2)
          (Cache.init { defaultOpts Nat with max := some 2 } 0)).data.lookup j).isSome)
        = true ↔ j ∈ (["a", "b", "c"] : List String)) ∧
      (∀ j, (((((["a", "b", "c"] : List String).foldl
          (fun c k => (c.set k (some 0) none 0).2)
          (Cache.init { defaultOpts Nat with max := some 2 } 0)).vacuum 0).data.lookup j).isSome)
        = true ↔ j ∈ (["a", "b", "c"] : List String).drop 1) ∧
      (∀ k0, (["a", "b", "c"] : List String).head? = some k0 →
        ((((["a", "b", "c"] : List String).foldl
          (fun c k => (c.set k (some 0) none 0).2)
          (Cache.init { defaultOpts Nat with max := some 2 } 0)).vacuum 0).data.lookup k0)
        = none) :=
  claim_C2_lru_eviction 2 (by decide) ["a", "b", "c"] (by decide) (by decide)

end AdequateCache
